import Mathlib

/-!
# Verification of the CSV series parser and monthly-growth aggregator

This file is a shallow embedding, in Lean 4, of the data-derivation pipeline
of the dashboard repository: `parseCSV` and `calculateMonthlyGrowth` from
`src/utils.ts`, together with proofs of the specified properties.

Embedding conventions:

* JavaScript numbers are modelled exactly: integer/fractional values as `ℚ`,
  with `Option ℚ` where a non-finite result (`NaN`, `±Infinity`) is possible;
  `none` stands for a non-finite value.  Non-finite values arise from failed
  parses (`NaN`), from arithmetic on non-finite operands, and from arithmetic
  overflow: a finite double operation whose exact result has magnitude at
  least `2^1024 - 2^970` rounds to `±Infinity`, which the aggregator's
  arithmetic (`jsSub`, `jsMul`, `jsDiv`) models by collapsing such results
  to `none`.  Rounding of in-range finite results is not modelled: all
  concrete values appearing in the claims are exactly representable, and the
  bounded-value hypotheses of the theorems keep every intermediate quantity
  far below the overflow threshold, so the exact JS double computations at
  those inputs give the same results.  (Parse results are kept exact; a
  numeric token so large that JS would round it to `Infinity` is not
  modelled here, and no claim depends on one.)
* A JS `Date` is its day-level timestamp: `Option Int`, `none` for an
  *Invalid Date* (`getTime()` is `NaN`), `some d` for the date `d` days from
  the epoch 1970-01-01.  `parseCSV` only constructs local-midnight dates, so
  day granularity is exact; the calendar conversions below implement the
  proleptic Gregorian calendar used by ECMAScript `MakeDay` /
  `YearFromTime` / `MonthFromTime` (Howard Hinnant's `days_from_civil` and
  `civil_from_days` algorithms).
* `Array.prototype.sort(cmp)` (required to be stable since ES2019) is
  modelled as a stable insertion sort `jsStableSort lt` where
  `lt a b = (cmp a b < 0)`: an element is inserted before the first element
  it compares strictly less than.  A comparator returning `NaN` (invalid
  dates) compares as "not less", exactly as in the ECMAScript `SortCompare`
  coercion, so such pairs keep their relative order.
* Strings are processed as `List Char`; the input fragment relevant to the
  program is ASCII, where Lean `Char` order coincides with the UTF-16
  code-unit order used by the JS `<` operator on strings.
-/

namespace NVT

/- Batteries marks the rational operations `@[irreducible]`; this file
evaluates concrete pipeline runs with `decide`, which needs them to
unfold. -/
attribute [local semireducible] Rat.add Rat.sub Rat.mul Rat.inv Rat.ofScientific

/-! ## JS character and string primitives -/

/-- The characters matched by the regex class `\s` (and trimmed by
`String.prototype.trim`) that can occur in a text blob; exotic Unicode
whitespace is not modelled. -/
def jsSpace (c : Char) : Bool :=
  c = ' ' ∨ c = '\t' ∨ c = '\n' ∨ c = '\r' ∨ c = '\x0b' ∨ c = '\x0c'

/-- Model of `String.prototype.trim`: strip whitespace from both ends. -/
def jsTrim (l : List Char) : List Char :=
  ((l.dropWhile jsSpace).reverse.dropWhile jsSpace).reverse

/-- Model of `String.prototype.split(sep)` for a one-character separator, with JS
semantics: `"".split` is `[""]`, a trailing separator yields a trailing
empty field. -/
def jsSplit (sep : Char) : List Char → List (List Char)
  | [] => [[]]
  | c :: rest =>
    match jsSplit sep rest, decide (c = sep) with
    | r, true => [] :: r
    | [], false => [[c]]
    | l :: ls, false => (c :: l) :: ls

/-! ## The tokenizing regex

`line.match(/(".*?"|[^",\s]+)(?=\s*,|\s*$)/g)` — scan left to right; at each
position try a lazily quoted token (first closing quote whose lookahead
succeeds), else a maximal run of non-quote, non-comma, non-space characters;
the token must be followed by optional whitespace and then a comma or the end
of the line. -/

/-- The lookahead `(?=\s*,|\s*$)`: skip whitespace, then require a comma or
the end of the string. -/
def lookaheadOk : List Char → Bool
  | [] => true
  | c :: rest => if c = ',' then true else if jsSpace c then lookaheadOk rest else false

/-- Characters matched by `.` (anything but line terminators). -/
def dotChar (c : Char) : Bool := ¬ (c = '\n' ∨ c = '\r')

/-- Characters matched by `[^",\s]`. -/
def tokenChar (c : Char) : Bool := ¬ (c = '"' ∨ c = ',' ∨ jsSpace c)

/-- Match `.*?"` lazily against the input (the part of a quoted token after
the opening quote), subject to the lookahead: the token closes at the first
`"` after which the lookahead succeeds; a `"` failing the lookahead is
consumed by `.*?`.  Returns the consumed characters (closing quote included)
and the rest. -/
def quotedBody : List Char → Option (List Char × List Char)
  | [] => none
  | c :: rest =>
    if c = '"' ∧ lookaheadOk rest then some ([c], rest)
    else if dotChar c then
      match quotedBody rest with
      | some (tk, rm) => some (c :: tk, rm)
      | none => none
    else none

/-- One scanning pass of the global regex match: at the current position try
the quoted alternative (only possible at a `"`), else the unquoted run
(backtracking a shortened greedy run is always futile, since a dropped
`[^",\s]` character at the head of the lookahead is neither whitespace nor a
comma), else advance one position.  `fuel` bounds the scan; it is consumed
at least as fast as the input, so `length + 1` suffices. -/
def findMatchesAux : Nat → List Char → List (List Char)
  | 0, _ => []
  | _, [] => []
  | fuel + 1, c :: rest =>
    if c = '"' then
      match quotedBody rest with
      | some (tk, rm) => ('"' :: tk) :: findMatchesAux fuel rm
      | none => findMatchesAux fuel rest
    else if tokenChar c then
      let run := (c :: rest).takeWhile tokenChar
      let rm := (c :: rest).dropWhile tokenChar
      if lookaheadOk rm then run :: findMatchesAux fuel rm
      else findMatchesAux fuel rest
    else findMatchesAux fuel rest

/-- All matches of `/(".*?"|[^",\s]+)(?=\s*,|\s*$)/g` in a line. -/
def tokenize (l : List Char) : List (List Char) :=
  findMatchesAux (l.length + 1) l

/-! ## JS number parsing

`Number`, `parseInt(·, 10)` and `parseFloat` are modelled on the fragment of
their grammars that the pipeline's inputs exercise: optional sign, decimal
digits, optional fraction.  (Hex/exponent forms are not modelled.)  `none`
is `NaN`. -/

/-- Numeric value of a digit character. -/
def chVal (c : Char) : Nat := c.toNat - 48

/-- Value of a list of decimal digits (most significant first). -/
def valOfDigits (l : List Char) : Nat := l.foldl (fun a c => a * 10 + chVal c) 0

/-- Value of a fraction part `.d₁…dₖ`. -/
def fracVal (l : List Char) : ℚ := (valOfDigits l : ℚ) / (10 ^ l.length : ℚ)

/-- The unsigned core of a `Number(…)` literal: `digits`, `digits.digits`,
`digits.` or `.digits`, consuming the whole input. -/
def numCore (cs : List Char) : Option ℚ :=
  let ip := cs.takeWhile Char.isDigit
  let rest := cs.dropWhile Char.isDigit
  match rest with
  | [] => if ip = [] then none else some (valOfDigits ip)
  | '.' :: fs =>
    if fs.all Char.isDigit ∧ (ip ≠ [] ∨ fs ≠ []) then
      some ((valOfDigits ip : ℚ) + fracVal fs)
    else none
  | _ => none

/-- Model of `Number(s)`: trims, accepts the empty string as `0`, optional sign. -/
def jsNumber (l : List Char) : Option ℚ :=
  match jsTrim l with
  | [] => some 0
  | '-' :: cs => (numCore cs).map (fun q => -q)
  | '+' :: cs => numCore cs
  | cs => numCore cs

/-- Model of `parseInt(s, 10)`: skip whitespace, optional sign, then the maximal
digit prefix (`NaN` if empty); trailing characters are ignored, so a
fractional literal is truncated toward zero. -/
def jsParseInt (l : List Char) : Option ℚ :=
  let t := l.dropWhile jsSpace
  let neg : Bool := t.head? = some '-'
  let u := if t.head? = some '-' ∨ t.head? = some '+' then t.tail else t
  let ds := u.takeWhile Char.isDigit
  if ds = [] then none
  else some (((if neg then -(valOfDigits ds : Int) else (valOfDigits ds : Int)) : Int) : ℚ)

/-- Model of `parseFloat(s)`: skip whitespace, optional sign, then the maximal prefix
of the form `digits[.digits]` or `.digits`; trailing characters ignored. -/
def jsParseFloat (l : List Char) : Option ℚ :=
  let t := l.dropWhile jsSpace
  let neg : Bool := t.head? = some '-'
  let u := if t.head? = some '-' ∨ t.head? = some '+' then t.tail else t
  let ip := u.takeWhile Char.isDigit
  let rest := u.dropWhile Char.isDigit
  let core : Option ℚ :=
    match rest with
    | '.' :: more =>
      let fs := more.takeWhile Char.isDigit
      if ip = [] ∧ fs = [] then none
      else some ((valOfDigits ip : ℚ) + fracVal fs)
    | _ => if ip = [] then none else some (valOfDigits ip)
  core.map (fun q => if neg then -q else q)

/-! ## Proleptic Gregorian calendar (ECMAScript `Date` internals) -/

/-- Days from the epoch 1970-01-01 of the civil date `(y, m, d)`,
`m ∈ [1,12]`; `d` is unconstrained — the formula is affine in `d`, which is
exactly how `MakeDay` lets out-of-range day numbers roll over. -/
def daysFromCivil (y m d : Int) : Int :=
  let y' := if m ≤ 2 then y - 1 else y
  let era := y' / 400
  let yoe := y' - era * 400
  let mp := (m + 9) % 12
  let doy := (153 * mp + 2) / 5 + d - 1
  let doe := yoe * 365 + yoe / 4 - yoe / 100 + doy
  era * 146097 + doe - 719468

/-- The civil date `(year, month ∈ [1,12], day)` containing the day number
`z` (days from the epoch).  This is `YearFromTime`/`MonthFromTime`/
`DateFromTime` of ECMAScript, at day granularity. -/
def civilFromDays (z0 : Int) : Int × Int × Int :=
  let z := z0 + 719468
  let era := z / 146097
  let doe := z % 146097
  let yoe := (doe - doe / 1460 + doe / 36524 - doe / 146096) / 365
  let y := yoe + era * 400
  let doy := doe - (365 * yoe + yoe / 4 - yoe / 100)
  let mp := (5 * doy + 2) / 153
  let d := doy - (153 * mp + 2) / 5 + 1
  let m := if mp < 10 then mp + 3 else mp - 9
  (if m ≤ 2 then y + 1 else y, m, d)

/-- Truncation toward zero (`ToIntegerOrInfinity` on a finite value). -/
def ratTrunc (q : ℚ) : Int := if 0 ≤ q then ⌊q⌋ else ⌈q⌉

/-- Model of `new Date(year, monthIndex, day)` at day granularity: `NaN` arguments
give an *Invalid Date*; a year `0…99` is interpreted as `1900…1999`; the
month index is normalized into the year; the result is clipped to the
ECMAScript time range (±8.64·10¹⁵ ms = ±10⁸ days). -/
def newDate (y m d : Option ℚ) : Option Int :=
  match y, m, d with
  | some y, some m, some d =>
    let yi := ratTrunc y
    let mi := ratTrunc m
    let di := ratTrunc d
    let yr := if 0 ≤ yi ∧ yi ≤ 99 then yi + 1900 else yi
    let ym := yr + mi / 12
    let mn := mi % 12
    let day := daysFromCivil ym (mn + 1) di
    if day.natAbs ≤ 100000000 then some day else none
  | _, _, _ => none

/-! ## The JS stable sort -/

/-- Insert `x` into `acc` before the first element `y` with `lt x y`
(i.e. `cmp x y < 0`).  Elements comparing "equal" (including `NaN`
comparisons) are passed over, which is exactly the stability guarantee. -/
def jsInsert (lt : α → α → Bool) (x : α) : List α → List α
  | [] => [x]
  | b :: bs => if lt x b then x :: b :: bs else b :: jsInsert lt x bs

/-- A stable sort with JS comparator semantics. -/
def jsStableSort (lt : α → α → Bool) (l : List α) : List α :=
  l.foldl (fun acc a => jsInsert lt a acc) []

/-! ## Data model -/

/-- Structure `StockDataPoint` of `src/types.ts`.  `dateObj` is the `Date` (day-level
timestamp, `none` = Invalid Date); `value` is a JS number (`none` = `NaN`,
as produced by a failed `parseInt`); `index` is the optional market-index
field (`none` = property absent). -/
structure StockDataPoint where
  date : String
  dateObj : Option Int
  value : Option ℚ
  index : Option ℚ
deriving DecidableEq, Repr

/-- Structure `MonthlyGrowth` of `src/types.ts`; all numeric fields are JS numbers. -/
structure MonthlyGrowth where
  month : String
  startValue : Option ℚ
  endValue : Option ℚ
  growth : Option ℚ
  growthPercent : Option ℚ
deriving DecidableEq, Repr

/-! ## `parseCSV` -/

/-- Model of `str.replace(/"/g, '').replace(/,/g, '')`. -/
def stripQC (l : List Char) : List Char :=
  l.filter (fun c => ¬ (c = '"' ∨ c = ','))

/-- The comparator `(a, b) => a.dateObj.getTime() - b.dateObj.getTime()`
read as "strictly less": the difference is negative iff both dates are
valid and `a` is earlier (a `NaN` difference is not `< 0`). -/
def timeLt (a b : StockDataPoint) : Bool :=
  match a.dateObj, b.dateObj with
  | some x, some y => x < y
  | _, _ => false

/-- Parse one data line: tokenize; fewer than two tokens drops the line;
token 0 is the raw date string (split on `/`, each part through `Number`,
then `new Date(year, month-1, day)`); token 1 is the value
(quotes/thousands-commas stripped, `parseInt`); token 2, when present, is
the optional index (`parseFloat`, kept only when not `NaN`). -/
def parseLine (line : List Char) : Option StockDataPoint :=
  let ms := tokenize line
  if ms.length < 2 then none
  else
    let dateStr := ms.getD 0 []
    let valueStr := stripQC (ms.getD 1 [])
    let parts := (jsSplit '/' dateStr).map jsNumber
    let year := (parts.getD 0 none)
    let month := (parts.getD 1 none)
    let day := (parts.getD 2 none)
    let dateObj := newDate year (month.map (fun q => q - 1)) day
    let indexVal : Option ℚ :=
      if 3 ≤ ms.length then
        match jsParseFloat (stripQC (ms.getD 2 [])) with
        | some q => some q
        | none => none
      else none
    some { date := ⟨dateStr⟩, dateObj := dateObj, value := jsParseInt valueStr,
           index := indexVal }

/-- The data lines of the input: trim, split on `\n`, drop the header. -/
def dataLines (csvContent : String) : List (List Char) :=
  (jsSplit '\n' (jsTrim csvContent.data)).drop 1

/-- Function `parseCSV` of `src/utils.ts`. -/
def parseCSV (csvContent : String) : List StockDataPoint :=
  jsStableSort timeLt ((dataLines csvContent).filterMap parseLine)

/-! ## `calculateMonthlyGrowth` -/

/-- Decimal digits of a natural number, most significant first (`fuel`
bounds the number of digits; `n` itself is always enough). -/
def natToCharsAux : Nat → Nat → List Char
  | 0, _ => []
  | fuel + 1, n =>
    if n < 10 then [Nat.digitChar n]
    else natToCharsAux fuel (n / 10) ++ [Nat.digitChar (n % 10)]

/-- Decimal digits of a natural number, most significant first. -/
def natToChars (n : Nat) : List Char := natToCharsAux (n + 1) n

/-- Model of `String(i)` for an integer-valued JS number. -/
def intToChars (i : Int) : List Char :=
  if i < 0 then '-' :: natToChars i.natAbs else natToChars i.natAbs

/-- Model of `.padStart(2, '0')` (the strings fed to it are nonempty). -/
def pad2 (l : List Char) : List Char :=
  if 2 ≤ l.length then l else '0' :: l

/-- The grouping key
`` `${getFullYear()}-${String(getMonth() + 1).padStart(2, '0')}` ``:
`"NaN-NaN"` for an invalid date, else zero-padded `YYYY-MM`. -/
def groupKey (d : Option Int) : List Char :=
  match d with
  | none => "NaN-NaN".data
  | some t =>
    let c := civilFromDays t
    intToChars c.1 ++ '-' :: pad2 (intToChars c.2.1)

/-- The key of a point, as the `String` stored in `MonthlyGrowth.month`. -/
def pointKey (p : StockDataPoint) : List Char := groupKey p.dateObj

/-- The strict string order used by the argument-less `monthKeys.sort()`:
lexicographic comparison of code units. -/
def lexLt : List Char → List Char → Bool
  | [], [] => false
  | [], _ :: _ => true
  | _ :: _, [] => false
  | a :: as, b :: bs => if a < b then true else if b < a then false else lexLt as bs

/-- The bucket `grouped[k]`: the points pushed for key `k`, in input order. -/
def bucketOf (data : List StockDataPoint) (k : List Char) : List StockDataPoint :=
  data.filter (fun p => pointKey p = k)

/-- A bucket after its in-place `points.sort(...)`. -/
def sortedBucket (data : List StockDataPoint) (k : List Char) : List StockDataPoint :=
  jsStableSort timeLt (bucketOf data k)

/-- Model of `Object.keys(grouped).sort()`: the distinct keys, sorted.  (Insertion
order of the distinct keys is irrelevant: they are pairwise distinct and the
sort by the total string order determines the result; `dedup` is used as the
canonical distinct list, and the state-level embedding below is proved to
produce the same sorted key list.) -/
def monthKeys (data : List StockDataPoint) : List (List Char) :=
  jsStableSort lexLt (data.map pointKey).dedup

/-- Placeholder point for the (provably unreachable) reads from an empty
bucket; a bucket whose key is in `monthKeys` is never empty. -/
def defPoint : StockDataPoint := ⟨"", none, none, none⟩

/-- The read `points[points.length - 1].value`. -/
def lastValue (l : List StockDataPoint) : Option ℚ := (l.getLastD defPoint).value

/-- The read `points[0].value`. -/
def firstValue (l : List StockDataPoint) : Option ℚ := (l.headD defPoint).value

/-- The lowest magnitude at which the result of a JS double operation rounds
to `±Infinity` under round-to-nearest-even: the midpoint
`2 ^ 1024 - 2 ^ 970` between the largest finite double
`2 ^ 1024 - 2 ^ 971` and `2 ^ 1024` (proved equal to this literal in
`dblOvf_eq` below).  The operations that follow apply it to the exact
result, which matches JS exactly whenever the operands are themselves
exactly representable doubles. -/
def dblOvf : ℚ := 179769313486231580793728971405303415079934132710037826936173778980444968292764750946649017977587207096330286416692887910946555547851940402630657488671505820681908902000708383676273854845817711531764475730270069855571366959622842914819860834936475292719074168444365510704342711559699508093042880177904174497792

/-- JS subtraction on numbers: non-finite operands propagate, and a finite
difference of magnitude at least `dblOvf` overflows to `±Infinity`
(collapsed to `none`). -/
def jsSub (a b : Option ℚ) : Option ℚ :=
  match a, b with
  | some x, some y => if |x - y| < dblOvf then some (x - y) else none
  | _, _ => none

/-- JS multiplication on numbers, with the same overflow to `±Infinity`. -/
def jsMul (a b : Option ℚ) : Option ℚ :=
  match a, b with
  | some x, some y => if |x * y| < dblOvf then some (x * y) else none
  | _, _ => none

/-- JS division on numbers: a zero divisor yields a non-finite result
(`±Infinity` or `NaN`), and a finite quotient of magnitude at least
`dblOvf` overflows to `±Infinity`; all collapsed to `none`. -/
def jsDiv (a b : Option ℚ) : Option ℚ :=
  match a, b with
  | some x, some y =>
    if y = 0 then none else if |x / y| < dblOvf then some (x / y) else none
  | _, _ => none

/-- Build one `MonthlyGrowth` record from the chosen baseline and closing
values: `growth = end - start`;
`growthPercent = previousEndValue !== 0 ? growth / previousEndValue * 100 : 0`
(note `NaN !== 0` is true, so only an exact-zero baseline takes the guard). -/
def mkRecord (k : List Char) (startV endV : Option ℚ) : MonthlyGrowth :=
  let growth := jsSub endV startV
  let growthPercent :=
    if startV ≠ some 0 then jsMul (jsDiv growth startV) (some 100) else some 0
  ⟨⟨k⟩, startV, endV, growth, growthPercent⟩

/-- The `monthKeys.map((monthKey, index) => …)` body, rendered as a
recursion carrying the previous key (`index = 0` ↔ `prev = none`;
`monthKeys[index - 1]` ↔ `prev = some pk`).  The month's own bucket is
sorted in place and read; for a subsequent month the previous bucket —
already sorted at the previous step — is sorted again before its last
element is read, exactly as in the source. -/
def growthAux (data : List StockDataPoint) :
    Option (List Char) → List (List Char) → List MonthlyGrowth
  | _, [] => []
  | none, k :: rest =>
    mkRecord k (firstValue (sortedBucket data k)) (lastValue (sortedBucket data k)) ::
      growthAux data (some k) rest
  | some pk, k :: rest =>
    mkRecord k (lastValue (jsStableSort timeLt (sortedBucket data pk)))
        (lastValue (sortedBucket data k)) ::
      growthAux data (some k) rest

/-- Function `calculateMonthlyGrowth` of `src/utils.ts`. -/
def calculateMonthlyGrowth (data : List StockDataPoint) : List MonthlyGrowth :=
  growthAux data none (monthKeys data)

/-! ## Specification-side notions used to state the claims -/

/-- The timestamps of the valid-date points of a list, in order. -/
def timesOf (l : List StockDataPoint) : List Int := l.filterMap (·.dateObj)

/-- The `(year, month)` pair of a date value (`none` for an invalid date,
whose "year" and "month" are both `NaN`). -/
def ymOf (d : Option Int) : Option (Int × Int) :=
  d.map (fun t => ((civilFromDays t).1, (civilFromDays t).2.1))

/-- The month key determined by a `(year, month)` pair; `groupKey` factors
through `ymOf` via this encoding. -/
def ymKeyEnc (ym : Option (Int × Int)) : List Char :=
  match ym with
  | none => "NaN-NaN".data
  | some (y, m) => intToChars y ++ '-' :: pad2 (intToChars m)

/-- Read a `"YYYY-MM"` key back into its `(year, month)` pair. -/
def decodeKey (s : String) : Option (Int × Int) :=
  let yds := s.data.takeWhile Char.isDigit
  let rest := s.data.dropWhile Char.isDigit
  match rest with
  | '-' :: mds =>
    if yds ≠ [] ∧ mds ≠ [] ∧ mds.all Char.isDigit then
      some ((valOfDigits yds : Int), (valOfDigits mds : Int))
    else none
  | _ => none

/-- The JS comparison `a.dateObj <= b.dateObj` on calendar dates: false
whenever either date is invalid (`NaN` comparisons are false). -/
def calDateLe (a b : StockDataPoint) : Bool :=
  match a.dateObj, b.dateObj with
  | some x, some y => x ≤ y
  | _, _ => false

/-- Chronological order on `(year, month)` pairs. -/
def ymLe (a b : Int × Int) : Prop :=
  a.1 < b.1 ∨ (a.1 = b.1 ∧ a.2 ≤ b.2)

/-- Decidable chronological comparison of two decoded month keys (false
unless both keys decode). -/
def ymLeB (a b : Option (Int × Int)) : Bool :=
  match a, b with
  | some x, some y => x.1 < y.1 ∨ (x.1 = y.1 ∧ x.2 ≤ y.2)
  | _, _ => false

/-- The date is valid and its calendar year has four digits. -/
def yearInRange (d : Option Int) : Bool :=
  match d with
  | none => false
  | some t => 1000 ≤ (civilFromDays t).1 ∧ (civilFromDays t).1 ≤ 9999

/-- Executable check that adjacent elements are related (used to evaluate
`List.Chain'` on concrete runs). -/
def chainB (r : α → α → Bool) : List α → Bool
  | [] => true
  | [_] => true
  | a :: b :: rest => r a b && chainB r (b :: rest)

/-! ## A state-level embedding of `calculateMonthlyGrowth`

To express that the function has no side effect on its argument, the
mutable objects it touches are modelled explicitly: the argument array and
the `grouped` record of bucket arrays.  Each in-place `points.sort(...)`
becomes a store update of the corresponding bucket; the argument array is
part of the state and every operation of the source acts on the buckets
only. -/

/-- The mutable store: the argument array's contents and the `grouped`
buckets in insertion order. -/
structure AggSt where
  data : List StockDataPoint
  buckets : List (List Char × List StockDataPoint)
deriving DecidableEq, Repr

/-- Model of `if (!grouped[key]) grouped[key] = []; grouped[key].push(point)`. -/
def pushBucket : List (List Char × List StockDataPoint) → List Char → StockDataPoint →
    List (List Char × List StockDataPoint)
  | [], k, p => [(k, [p])]
  | (k', l) :: bs, k, p =>
    if k' = k then (k', l ++ [p]) :: bs else (k', l) :: pushBucket bs k p

/-- The read `grouped[k]` (the empty default is never consulted: reads are at keys of
`Object.keys(grouped)`). -/
def getBucket : List (List Char × List StockDataPoint) → List Char → List StockDataPoint
  | [], _ => []
  | (k', l) :: bs, k => if k' = k then l else getBucket bs k

/-- Overwrite the bucket stored at an existing key. -/
def setBucket : List (List Char × List StockDataPoint) → List Char → List StockDataPoint →
    List (List Char × List StockDataPoint)
  | [], _, _ => []
  | (k', l) :: bs, k, nl =>
    if k' = k then (k', nl) :: bs else (k', l) :: setBucket bs k nl

/-- Model of `Object.keys(grouped)`: the keys in insertion order. -/
def bucketKeys (bs : List (List Char × List StockDataPoint)) : List (List Char) :=
  bs.map (·.1)

/-- The in-place `grouped[k].sort((a, b) => …getTime() - …getTime())`. -/
def sortBucketAt (st : AggSt) (k : List Char) : AggSt :=
  { st with buckets := setBucket st.buckets k (jsStableSort timeLt (getBucket st.buckets k)) }

/-- The record-producing loop over the sorted keys, threading the store:
the month's bucket is sorted in place and read; a subsequent month
additionally re-sorts the previous month's bucket in place before reading
its last element. -/
def trackedGrowthAux : AggSt → Option (List Char) → List (List Char) →
    List MonthlyGrowth × AggSt
  | st, _, [] => ([], st)
  | st, none, k :: rest =>
    let st1 := sortBucketAt st k
    let points := getBucket st1.buckets k
    let out := trackedGrowthAux st1 (some k) rest
    (mkRecord k (firstValue points) (lastValue points) :: out.1, out.2)
  | st, some pk, k :: rest =>
    let st1 := sortBucketAt st k
    let points := getBucket st1.buckets k
    let st2 := sortBucketAt st1 pk
    let prevPts := getBucket st2.buckets pk
    let out := trackedGrowthAux st2 (some k) rest
    (mkRecord k (lastValue prevPts) (lastValue points) :: out.1, out.2)

/-- Function `calculateMonthlyGrowth` acting on the explicit store: build the
buckets by scanning the argument (reads only), then run the loop over
`Object.keys(grouped).sort()`; returns the records and the final store. -/
def trackedCalculateMonthlyGrowth (data : List StockDataPoint) :
    List MonthlyGrowth × AggSt :=
  let st0 : AggSt := ⟨data, data.foldl (fun bs p => pushBucket bs (pointKey p) p) []⟩
  trackedGrowthAux st0 none (jsStableSort lexLt (bucketKeys st0.buckets))

/-! ## Lemmas about the stable sort -/

theorem jsInsert_perm (lt : α → α → Bool) (x : α) :
    ∀ l : List α, (jsInsert lt x l).Perm (x :: l) := by
  intro l
  induction l with
  | nil => simp [jsInsert]
  | cons b bs ih =>
    simp only [jsInsert]
    split
    · exact List.Perm.refl _
    · exact (ih.cons b).trans (List.Perm.swap x b bs)

theorem foldl_jsInsert_perm (lt : α → α → Bool) :
    ∀ (rest acc : List α),
      (List.foldl (fun acc a => jsInsert lt a acc) acc rest).Perm (acc ++ rest) := by
  intro rest
  induction rest with
  | nil => intro acc; simp
  | cons x rest ih =>
    intro acc
    exact ((ih (jsInsert lt x acc)).trans
      (((jsInsert_perm lt x acc).append_right rest).trans List.perm_middle.symm))

theorem jsStableSort_perm (lt : α → α → Bool) (l : List α) :
    (jsStableSort lt l).Perm l :=
  foldl_jsInsert_perm lt l []

theorem mem_jsStableSort (lt : α → α → Bool) (l : List α) (a : α) :
    a ∈ jsStableSort lt l ↔ a ∈ l :=
  (jsStableSort_perm lt l).mem_iff

theorem mem_jsInsert (lt : α → α → Bool) (x : α) (l : List α) (a : α) :
    a ∈ jsInsert lt x l ↔ a = x ∨ a ∈ l := by
  rw [(jsInsert_perm lt x l).mem_iff, List.mem_cons]

/-- Inserting preserves sortedness, given asymmetry and co-transitivity of
the comparator on the elements involved. -/
theorem pairwise_jsInsert (lt : α → α → Bool) (x : α) (acc : List α)
    (hasym : ∀ a ∈ x :: acc, ∀ b ∈ x :: acc, lt a b = true → lt b a = false)
    (hcot : ∀ a ∈ x :: acc, ∀ b ∈ x :: acc, ∀ c ∈ x :: acc,
      lt b a = false → lt c b = false → lt c a = false)
    (hacc : acc.Pairwise (fun a b => lt b a = false)) :
    (jsInsert lt x acc).Pairwise (fun a b => lt b a = false) := by
  induction acc with
  | nil => simp [jsInsert]
  | cons b bs ih =>
    rw [List.pairwise_cons] at hacc
    obtain ⟨hb, hbs⟩ := hacc
    simp only [jsInsert]
    split
    · rename_i hxb
      refine List.pairwise_cons.mpr ⟨?_, List.pairwise_cons.mpr ⟨hb, hbs⟩⟩
      intro z hz
      rcases List.mem_cons.mp hz with rfl | hz'
      · exact hasym x (by simp) z (by simp) hxb
      · -- lt z x = false from lt z b = false and lt b x = false
        have h1 : lt z b = false := hb z hz'
        have h2 : lt b x = false := hasym x (by simp) b (by simp) hxb
        exact hcot x (by simp) b (by simp) z (by simp [hz']) h2 h1
    · rename_i hxb
      refine List.pairwise_cons.mpr ⟨?_, ?_⟩
      · intro z hz
        rcases (mem_jsInsert lt x bs z).mp hz with rfl | hz'
        · exact Bool.not_eq_true _ ▸ (by simpa using hxb)
        · exact hb z hz'
      · have hw : ∀ a ∈ x :: bs, a ∈ x :: b :: bs := by
          intro a ha
          rcases List.mem_cons.mp ha with rfl | h
          · exact List.mem_cons_self _ _
          · exact List.mem_cons_of_mem _ (List.mem_cons_of_mem _ h)
        refine ih ?_ ?_ hbs
        · intro a ha c hc
          exact hasym a (hw a ha) c (hw c hc)
        · intro a ha c hc d hd
          exact hcot a (hw a ha) c (hw c hc) d (hw d hd)

/-- The sort output is sorted in the `¬ (b < a)` sense, under asymmetry and
co-transitivity of the comparator on the input's elements. -/
theorem pairwise_jsStableSort (lt : α → α → Bool) (l : List α)
    (hasym : ∀ a ∈ l, ∀ b ∈ l, lt a b = true → lt b a = false)
    (hcot : ∀ a ∈ l, ∀ b ∈ l, ∀ c ∈ l,
      lt b a = false → lt c b = false → lt c a = false) :
    (jsStableSort lt l).Pairwise (fun a b => lt b a = false) := by
  suffices h : ∀ (rest acc : List α),
      (∀ a ∈ acc ++ rest, a ∈ l) →
      acc.Pairwise (fun a b => lt b a = false) →
      (List.foldl (fun acc a => jsInsert lt a acc) acc rest).Pairwise
        (fun a b => lt b a = false) by
    exact h l [] (by simp) (by simp)
  intro rest
  induction rest with
  | nil => intro acc _ hacc; simpa using hacc
  | cons x rest ih =>
    intro acc hsub hacc
    simp only [List.foldl_cons]
    refine ih (jsInsert lt x acc) ?_ ?_
    · intro a ha
      rcases List.mem_append.mp ha with h | h
      · rcases (mem_jsInsert lt x acc a).mp h with rfl | h'
        · exact hsub a (by simp)
        · exact hsub a (by simp [h'])
      · exact hsub a (by simp [h])
    · have hmem : ∀ a ∈ x :: acc, a ∈ l := by
        intro a ha
        rcases List.mem_cons.mp ha with rfl | h
        · exact hsub a (List.mem_append_right _ (List.mem_cons_self _ _))
        · exact hsub a (List.mem_append_left _ h)
      refine pairwise_jsInsert lt x acc ?_ ?_ hacc
      · intro a ha b hb
        exact hasym a (hmem a ha) b (hmem b hb)
      · intro a ha b hb c hc
        exact hcot a (hmem a ha) b (hmem b hb) c (hmem c hc)

/-! ## Idempotence of the date sort

The in-place `points.sort(...)` is applied a second time to an
already-sorted bucket when a month reads its predecessor's closing value.
Even in the presence of invalid dates (whose comparisons are all "equal"),
re-sorting an output of the sort is the identity: the valid-date
subsequence of any output is nondecreasing, and every element is inserted
at the end when the list is scanned again. -/

theorem timeLt_true_iff (a b : StockDataPoint) :
    timeLt a b = true ↔ ∃ x y, a.dateObj = some x ∧ b.dateObj = some y ∧ x < y := by
  unfold timeLt
  cases ha : a.dateObj <;> cases hb : b.dateObj <;> simp

theorem timeLt_false_of_left_none {a b : StockDataPoint} (h : a.dateObj = none) :
    timeLt a b = false := by
  unfold timeLt; rw [h]

theorem timeLt_false_of_right_none {a b : StockDataPoint} (h : b.dateObj = none) :
    timeLt a b = false := by
  unfold timeLt; rw [h]; cases a.dateObj <;> rfl

theorem timeLt_asym (a b : StockDataPoint) (h : timeLt a b = true) :
    timeLt b a = false := by
  obtain ⟨x, y, hx, hy, hlt⟩ := (timeLt_true_iff a b).mp h
  unfold timeLt
  rw [hx, hy]
  simpa using Int.not_lt.mpr (Int.le_of_lt hlt)

theorem mem_timesOf (l : List StockDataPoint) (z : Int) :
    z ∈ timesOf l ↔ ∃ p ∈ l, p.dateObj = some z := by
  simp [timesOf, List.mem_filterMap]

theorem timesOf_pairwise_jsInsert (x : StockDataPoint) (acc : List StockDataPoint)
    (hacc : (timesOf acc).Pairwise (· ≤ ·)) :
    (timesOf (jsInsert timeLt x acc)).Pairwise (· ≤ ·) := by
  induction acc with
  | nil =>
    simp only [jsInsert, timesOf, List.filterMap]
    cases x.dateObj <;> simp
  | cons b bs ih =>
    simp only [jsInsert]
    split
    · rename_i hxb
      obtain ⟨tx, tb, hx, hb, hlt⟩ := (timeLt_true_iff x b).mp hxb
      have : timesOf (x :: b :: bs) = tx :: tb :: timesOf bs := by
        simp [timesOf, List.filterMap_cons, hx, hb]
      rw [this]
      have hacc' : (tb :: timesOf bs).Pairwise (· ≤ ·) := by
        have : timesOf (b :: bs) = tb :: timesOf bs := by
          simp [timesOf, List.filterMap_cons, hb]
        rwa [this] at hacc
      refine List.pairwise_cons.mpr ⟨?_, hacc'⟩
      intro z hz
      rcases List.mem_cons.mp hz with rfl | hz'
      · exact Int.le_of_lt hlt
      · exact le_trans (Int.le_of_lt hlt) ((List.pairwise_cons.mp hacc').1 z hz')
    · rename_i hxb
      cases hb : b.dateObj with
      | none =>
        have h1 : timesOf (b :: jsInsert timeLt x bs) = timesOf (jsInsert timeLt x bs) := by
          simp [timesOf, List.filterMap_cons, hb]
        have h2 : timesOf (b :: bs) = timesOf bs := by
          simp [timesOf, List.filterMap_cons, hb]
        rw [h1]
        exact ih (h2 ▸ hacc)
      | some tb =>
        have h1 : timesOf (b :: jsInsert timeLt x bs) = tb :: timesOf (jsInsert timeLt x bs) := by
          simp [timesOf, List.filterMap_cons, hb]
        have h2 : timesOf (b :: bs) = tb :: timesOf bs := by
          simp [timesOf, List.filterMap_cons, hb]
        rw [h2] at hacc
        rw [h1]
        refine List.pairwise_cons.mpr ⟨?_, ih (List.pairwise_cons.mp hacc).2⟩
        intro z hz
        have hz' : z ∈ timesOf (x :: bs) :=
          ((jsInsert_perm timeLt x bs).filterMap (·.dateObj)).mem_iff.mp hz
        obtain ⟨p, hp, hpz⟩ := (mem_timesOf _ z).mp hz'
        rcases List.mem_cons.mp hp with rfl | hp'
        · -- z is x's time; from `¬ timeLt x b` with both valid, tb ≤ z
          have : ¬ (z < tb) := by
            intro hlt
            have : timeLt p b = true := (timeLt_true_iff p b).mpr ⟨z, tb, hpz, hb, hlt⟩
            simp [this] at hxb
          omega
        · exact (List.pairwise_cons.mp hacc).1 z ((mem_timesOf bs z).mpr ⟨p, hp', hpz⟩)

theorem timesOf_pairwise_jsStableSort (l : List StockDataPoint) :
    (timesOf (jsStableSort timeLt l)).Pairwise (· ≤ ·) := by
  suffices h : ∀ (rest acc : List StockDataPoint),
      (timesOf acc).Pairwise (· ≤ ·) →
      (timesOf (List.foldl (fun acc a => jsInsert timeLt a acc) acc rest)).Pairwise (· ≤ ·) by
    exact h l [] (by simp [timesOf])
  intro rest
  induction rest with
  | nil => intro acc hacc; simpa using hacc
  | cons x rest ih =>
    intro acc hacc
    exact ih (jsInsert timeLt x acc) (timesOf_pairwise_jsInsert x acc hacc)

theorem jsInsert_eq_append (lt : α → α → Bool) (x : α) :
    ∀ acc : List α, (∀ y ∈ acc, lt x y = false) → jsInsert lt x acc = acc ++ [x] := by
  intro acc
  induction acc with
  | nil => intro _; rfl
  | cons b bs ih =>
    intro h
    simp only [jsInsert]
    rw [if_neg (by simp [h b (List.mem_cons_self _ _)]), ih (fun y hy => h y (List.mem_cons_of_mem _ hy))]
    rfl

theorem foldl_jsInsert_of_sorted :
    ∀ (rest acc : List StockDataPoint),
      (∀ z ∈ rest, ∀ y ∈ acc, timeLt z y = false) →
      (timesOf rest).Pairwise (· ≤ ·) →
      List.foldl (fun acc a => jsInsert timeLt a acc) acc rest = acc ++ rest := by
  intro rest
  induction rest with
  | nil => intro acc _ _; simp
  | cons x rest ih =>
    intro acc hza hrest
    simp only [List.foldl_cons]
    rw [jsInsert_eq_append timeLt x acc (hza x (List.mem_cons_self _ _))]
    rw [ih (acc ++ [x]) ?_ ?_]
    · simp
    · intro z hz y hy
      rcases List.mem_append.mp hy with hy' | hy'
      · exact hza z (List.mem_cons_of_mem _ hz) y hy'
      · -- y = x, a predecessor of z in the sorted list `x :: rest`
        have hyx : y = x := by simpa using hy'
        subst hyx
        cases hzd : z.dateObj with
        | none => exact timeLt_false_of_left_none hzd
        | some tz =>
          cases hxd : y.dateObj with
          | none => exact timeLt_false_of_right_none hxd
          | some ty =>
            have hle : ty ≤ tz := by
              have h1 : timesOf (y :: rest) = ty :: timesOf rest := by
                simp [timesOf, List.filterMap_cons, hxd]
              rw [h1] at hrest
              exact (List.pairwise_cons.mp hrest).1 tz ((mem_timesOf rest tz).mpr ⟨z, hz, hzd⟩)
            unfold timeLt
            rw [hzd, hxd]
            simpa using Int.not_lt.mpr hle
    · cases hxd : x.dateObj with
      | none =>
        have : timesOf (x :: rest) = timesOf rest := by
          simp [timesOf, List.filterMap_cons, hxd]
        exact this ▸ hrest
      | some tx =>
        have : timesOf (x :: rest) = tx :: timesOf rest := by
          simp [timesOf, List.filterMap_cons, hxd]
        rw [this] at hrest
        exact (List.pairwise_cons.mp hrest).2

/-- Scanning an already "time-sorted" list re-inserts every element at the
end: the sort is the identity on lists satisfying its own output invariant. -/
theorem jsStableSort_of_sorted (R : List StockDataPoint)
    (h : (timesOf R).Pairwise (· ≤ ·)) : jsStableSort timeLt R = R := by
  have := foldl_jsInsert_of_sorted R [] (by intro z _ y hy; cases hy) h
  simpa [jsStableSort] using this

/-- Re-sorting a bucket that was sorted at the previous step is a no-op. -/
theorem jsStableSort_timeLt_idem (l : List StockDataPoint) :
    jsStableSort timeLt (jsStableSort timeLt l) = jsStableSort timeLt l :=
  jsStableSort_of_sorted _ (timesOf_pairwise_jsStableSort l)

theorem sortedBucket_resort (data : List StockDataPoint) (k : List Char) :
    jsStableSort timeLt (sortedBucket data k) = sortedBucket data k :=
  jsStableSort_timeLt_idem (bucketOf data k)

/-! ## Structure of the aggregator's output -/

theorem mkRecord_month (k : List Char) (s e : Option ℚ) :
    (mkRecord k s e).month = ⟨k⟩ := rfl

theorem mkRecord_startValue (k : List Char) (s e : Option ℚ) :
    (mkRecord k s e).startValue = s := rfl

theorem mkRecord_endValue (k : List Char) (s e : Option ℚ) :
    (mkRecord k s e).endValue = e := rfl

theorem mkRecord_growth (k : List Char) (s e : Option ℚ) :
    (mkRecord k s e).growth = jsSub e s := rfl

theorem mkRecord_growthPercent (k : List Char) (s e : Option ℚ) :
    (mkRecord k s e).growthPercent =
      if s ≠ some 0 then jsMul (jsDiv (jsSub e s) s) (some 100) else some 0 := rfl

theorem growthAux_shape (data : List StockDataPoint) :
    ∀ (ks : List (List Char)) (prev : Option (List Char)) (r : MonthlyGrowth),
      r ∈ growthAux data prev ks → ∃ k s e, r = mkRecord k s e := by
  intro ks
  induction ks with
  | nil =>
    intro prev r hr
    cases prev <;> cases hr
  | cons k rest ih =>
    intro prev r hr
    cases prev with
    | none =>
      simp only [growthAux] at hr
      rcases List.mem_cons.mp hr with rfl | hr'
      · exact ⟨_, _, _, rfl⟩
      · exact ih (some k) r hr'
    | some pk =>
      simp only [growthAux] at hr
      rcases List.mem_cons.mp hr with rfl | hr'
      · exact ⟨_, _, _, rfl⟩
      · exact ih (some k) r hr'

theorem growthAux_map_month (data : List StockDataPoint) :
    ∀ (ks : List (List Char)) (prev : Option (List Char)),
      (growthAux data prev ks).map (·.month) = ks.map (fun k => (⟨k⟩ : String)) := by
  intro ks
  induction ks with
  | nil => intro prev; cases prev <;> rfl
  | cons k rest ih =>
    intro prev
    cases prev <;> simp [growthAux, ih, mkRecord_month]

/-- Consecutive records chain: each subsequent record's `startValue` is the
previous record's `endValue` (the second in-place sort of the previous
bucket is a no-op). -/
theorem growthAux_chain (data : List StockDataPoint) :
    ∀ (ks : List (List Char)) (prev : Option (List Char)),
      List.Chain' (fun r1 r2 => r2.startValue = r1.endValue) (growthAux data prev ks) := by
  intro ks
  induction ks with
  | nil => intro prev; cases prev <;> exact List.chain'_nil
  | cons k rest ih =>
    intro prev
    have hhead : ∀ b ∈ (growthAux data (some k) rest).head?,
        b.startValue = lastValue (sortedBucket data k) := by
      intro b hb
      cases rest with
      | nil => simp [growthAux] at hb
      | cons k' rest' =>
        simp only [growthAux, List.head?_cons, Option.mem_def, Option.some.injEq] at hb
        subst hb
        rw [mkRecord_startValue, sortedBucket_resort]
    cases prev with
    | none =>
      simp only [growthAux]
      exact List.chain'_cons'.mpr ⟨by simpa [mkRecord_endValue] using hhead, ih (some k)⟩
    | some pk =>
      simp only [growthAux]
      exact List.chain'_cons'.mpr ⟨by simpa [mkRecord_endValue] using hhead, ih (some k)⟩

theorem monthKeys_nodup (data : List StockDataPoint) : (monthKeys data).Nodup :=
  ((jsStableSort_perm lexLt _).nodup_iff).mpr (List.nodup_dedup _)

theorem mem_monthKeys (data : List StockDataPoint) (k : List Char) :
    k ∈ monthKeys data ↔ ∃ p ∈ data, pointKey p = k := by
  rw [monthKeys, mem_jsStableSort, List.mem_dedup, List.mem_map]

theorem sortedBucket_ne_nil (data : List StockDataPoint) (k : List Char)
    (h : k ∈ monthKeys data) : sortedBucket data k ≠ [] := by
  obtain ⟨p, hp, hk⟩ := (mem_monthKeys data k).mp h
  have h1 : p ∈ bucketOf data k := List.mem_filter.mpr ⟨hp, by simp [hk]⟩
  have h2 : p ∈ sortedBucket data k := (mem_jsStableSort _ _ _).mpr h1
  intro he
  rw [he] at h2
  cases h2

theorem getLastD_mem_of_ne_nil : ∀ (l : List α) (d : α), l ≠ [] → l.getLastD d ∈ l := by
  intro l
  induction l with
  | nil => intro d h; cases h rfl
  | cons a as ih =>
    intro d _
    rw [List.getLastD_cons]
    cases as with
    | nil => simp [List.getLastD]
    | cons b bs => exact List.mem_cons_of_mem _ (ih a (by simp))

theorem mem_of_mem_sortedBucket (data : List StockDataPoint) (k : List Char)
    (p : StockDataPoint) (h : p ∈ sortedBucket data k) : p ∈ data :=
  List.mem_of_mem_filter ((mem_jsStableSort timeLt _ p).mp h)

theorem lastValue_sortedBucket (data : List StockDataPoint) (k : List Char)
    (h : k ∈ monthKeys data) :
    ∃ p ∈ data, lastValue (sortedBucket data k) = p.value := by
  refine ⟨(sortedBucket data k).getLastD defPoint,
    mem_of_mem_sortedBucket data k _
      (getLastD_mem_of_ne_nil _ _ (sortedBucket_ne_nil data k h)), rfl⟩

theorem firstValue_sortedBucket (data : List StockDataPoint) (k : List Char)
    (h : k ∈ monthKeys data) :
    ∃ p ∈ data, firstValue (sortedBucket data k) = p.value := by
  have hne := sortedBucket_ne_nil data k h
  cases hb : sortedBucket data k with
  | nil => cases hne hb
  | cons a as =>
    refine ⟨a, mem_of_mem_sortedBucket data k a (by rw [hb]; exact List.mem_cons_self _ _), ?_⟩
    simp [firstValue, hb]

/-- Every record's baseline and closing values are `value`s of input points
(provided every key handled is a genuine month key). -/
theorem growthAux_values (data : List StockDataPoint) :
    ∀ (ks : List (List Char)) (prev : Option (List Char)) (r : MonthlyGrowth),
      (∀ k ∈ ks, k ∈ monthKeys data) →
      (∀ pk, prev = some pk → pk ∈ monthKeys data) →
      r ∈ growthAux data prev ks →
      (∃ p ∈ data, r.startValue = p.value) ∧ (∃ p ∈ data, r.endValue = p.value) := by
  intro ks
  induction ks with
  | nil =>
    intro prev r _ _ hr
    cases prev <;> cases hr
  | cons k rest ih =>
    intro prev r hks hprev hr
    have hk : k ∈ monthKeys data := hks k (List.mem_cons_self _ _)
    have htail : ∀ k' ∈ rest, k' ∈ monthKeys data :=
      fun k' h => hks k' (List.mem_cons_of_mem _ h)
    cases prev with
    | none =>
      simp only [growthAux] at hr
      rcases List.mem_cons.mp hr with rfl | hr'
      · exact ⟨by simpa [mkRecord_startValue] using firstValue_sortedBucket data k hk,
          by simpa [mkRecord_endValue] using lastValue_sortedBucket data k hk⟩
      · exact ih (some k) r htail (by intro pk h; cases h; exact hk) hr'
    | some pk =>
      simp only [growthAux] at hr
      rcases List.mem_cons.mp hr with rfl | hr'
      · have hpk : pk ∈ monthKeys data := hprev pk rfl
        constructor
        · rw [mkRecord_startValue, sortedBucket_resort]
          exact lastValue_sortedBucket data pk hpk
        · simpa [mkRecord_endValue] using lastValue_sortedBucket data k hk
      · exact ih (some k) r htail (by intro k'' h; cases h; exact hk) hr'

/-! ## The lexicographic string order -/

theorem lexLt_irrefl : ∀ l : List Char, lexLt l l = false := by
  intro l
  induction l with
  | nil => rfl
  | cons a as ih => simp [lexLt, ih, lt_irrefl]

theorem lexLt_asymm : ∀ a b : List Char, lexLt a b = true → lexLt b a = false := by
  intro a
  induction a with
  | nil =>
    intro b h
    cases b with
    | nil => simp [lexLt] at h
    | cons c cs => rfl
  | cons x xs ih =>
    intro b h
    cases b with
    | nil => simp [lexLt] at h
    | cons y ys =>
      simp only [lexLt] at h ⊢
      by_cases hxy : x < y
      · rw [if_neg (asymm hxy), if_pos hxy]
      · by_cases hyx : y < x
        · rw [if_neg hxy, if_pos hyx] at h
          simp at h
        · rw [if_neg hxy, if_neg hyx] at h
          rw [if_neg hyx, if_neg hxy]
          exact ih ys h

theorem lexLt_trans : ∀ a b c : List Char,
    lexLt a b = true → lexLt b c = true → lexLt a c = true := by
  intro a
  induction a with
  | nil =>
    intro b c hab hbc
    cases b with
    | nil => simp [lexLt] at hab
    | cons y ys =>
      cases c with
      | nil => simp [lexLt] at hbc
      | cons z zs => rfl
  | cons x xs ih =>
    intro b c hab hbc
    cases b with
    | nil => simp [lexLt] at hab
    | cons y ys =>
      cases c with
      | nil => simp [lexLt] at hbc
      | cons z zs =>
        simp only [lexLt] at hab hbc ⊢
        by_cases hxy : x < y
        · by_cases hyz : y < z
          · rw [if_pos (lt_trans hxy hyz)]
          · by_cases hzy : z < y
            · rw [if_neg hyz, if_pos hzy] at hbc
              simp at hbc
            · have : y = z := le_antisymm (not_lt.mp hzy) (not_lt.mp hyz)
              subst this
              rw [if_pos hxy]
        · by_cases hyx : y < x
          · rw [if_neg hxy, if_pos hyx] at hab
            simp at hab
          · have hxy' : x = y := le_antisymm (not_lt.mp hyx) (not_lt.mp hxy)
            subst hxy'
            rw [if_neg hxy, if_neg hyx] at hab
            by_cases hxz : x < z
            · rw [if_pos hxz]
            · by_cases hzx : z < x
              · rw [if_neg hxz, if_pos hzx] at hbc
                simp at hbc
              · rw [if_neg hxz, if_neg hzx] at hbc ⊢
                exact ih ys zs hab hbc

theorem lexLt_eq_of_not : ∀ a b : List Char,
    lexLt a b = false → lexLt b a = false → a = b := by
  intro a
  induction a with
  | nil =>
    intro b h1 _
    cases b with
    | nil => rfl
    | cons y ys => simp [lexLt] at h1
  | cons x xs ih =>
    intro b h1 h2
    cases b with
    | nil => simp [lexLt] at h2
    | cons y ys =>
      simp only [lexLt] at h1 h2
      by_cases hxy : x < y
      · rw [if_pos hxy] at h1
        simp at h1
      · by_cases hyx : y < x
        · rw [if_pos hyx] at h2
          simp at h2
        · have hxy' : x = y := le_antisymm (not_lt.mp hyx) (not_lt.mp hxy)
          rw [if_neg hxy, if_neg hyx] at h1
          rw [if_neg hyx, if_neg hxy] at h2
          rw [hxy', ih ys h1 h2]

theorem lexLt_cotrans (a b c : List Char) (h1 : lexLt b a = false)
    (h2 : lexLt c b = false) : lexLt c a = false := by
  cases hca : lexLt c a with
  | false => rfl
  | true =>
    exfalso
    have hab : lexLt a b = true ∨ a = b := by
      cases hab' : lexLt a b with
      | true => exact Or.inl rfl
      | false => exact Or.inr (lexLt_eq_of_not a b hab' h1)
    have hbc : lexLt b c = true ∨ b = c := by
      cases hbc' : lexLt b c with
      | true => exact Or.inl rfl
      | false => exact Or.inr (lexLt_eq_of_not b c hbc' h2)
    rcases hab with hab | rfl
    · rcases hbc with hbc | rfl
      · have := lexLt_asymm a c (lexLt_trans a b c hab hbc)
        simp [this] at hca
      · have := lexLt_asymm a b hab
        simp [this] at hca
    · rcases hbc with hbc | rfl
      · have := lexLt_asymm a c hbc
        simp [this] at hca
      · simp [lexLt_irrefl a] at hca

theorem lexLt_append_left : ∀ (p u v : List Char), lexLt (p ++ u) (p ++ v) = lexLt u v := by
  intro p u v
  induction p with
  | nil => rfl
  | cons a as ih => simp [lexLt, lt_irrefl, ih]

/-! ## Decimal digit strings -/

theorem natToCharsAux_fuel : ∀ (f1 f2 n : Nat), n < f1 → n < f2 →
    natToCharsAux f1 n = natToCharsAux f2 n := by
  intro f1
  induction f1 with
  | zero => intro f2 n h1 _; omega
  | succ f ih =>
    intro f2 n h1 h2
    cases f2 with
    | zero => omega
    | succ f2' =>
      simp only [natToCharsAux]
      split
      · rfl
      · rw [ih f2' (n / 10) (by omega) (by omega)]

theorem natToChars_eq (n : Nat) : natToChars n =
    if n < 10 then [Nat.digitChar n] else natToChars (n / 10) ++ [Nat.digitChar (n % 10)] := by
  rw [natToChars, natToCharsAux]
  split
  · rfl
  · rw [natToCharsAux_fuel n (n / 10 + 1) (n / 10) (by omega) (by omega)]
    rfl

theorem digitChar_isDigit (k : Nat) (h : k < 10) : (Nat.digitChar k).isDigit = true := by
  interval_cases k <;> decide

theorem chVal_digitChar (k : Nat) (h : k < 10) : chVal (Nat.digitChar k) = k := by
  interval_cases k <;> decide

theorem natToChars_all_digits (n : Nat) : ∀ c ∈ natToChars n, c.isDigit = true := by
  induction n using Nat.strong_induction_on with
  | _ n ih =>
    rw [natToChars_eq]
    split
    · rename_i h
      intro c hc
      simp only [List.mem_singleton] at hc
      subst hc
      exact digitChar_isDigit n h
    · rename_i h
      intro c hc
      rcases List.mem_append.mp hc with hc' | hc'
      · exact ih (n / 10) (by omega) c hc'
      · simp only [List.mem_singleton] at hc'
        subst hc'
        exact digitChar_isDigit (n % 10) (by omega)

theorem valOfDigits_append (l : List Char) (c : Char) :
    valOfDigits (l ++ [c]) = 10 * valOfDigits l + chVal c := by
  simp [valOfDigits, List.foldl_append]
  omega

theorem valOfDigits_natToChars (n : Nat) : valOfDigits (natToChars n) = n := by
  induction n using Nat.strong_induction_on with
  | _ n ih =>
    rw [natToChars_eq]
    split
    · rename_i h
      show valOfDigits [Nat.digitChar n] = n
      simp [valOfDigits]
      exact chVal_digitChar n h
    · rename_i h
      rw [valOfDigits_append, ih (n / 10) (by omega), chVal_digitChar (n % 10) (by omega)]
      omega

theorem natToChars_inj {m n : Nat} (h : natToChars m = natToChars n) : m = n := by
  have h1 := valOfDigits_natToChars m
  rw [h, valOfDigits_natToChars] at h1
  omega

theorem natToChars_ne_nil (n : Nat) : natToChars n ≠ [] := by
  rw [natToChars_eq]
  split
  · simp
  · simp

theorem natToChars_not_dash (n : Nat) : ∀ c ∈ natToChars n, c ≠ '-' := by
  intro c hc he
  have := natToChars_all_digits n c hc
  subst he
  simp at this

theorem intToChars_inj {i j : Int} (h : intToChars i = intToChars j) : i = j := by
  unfold intToChars at h
  split at h <;> split at h
  · rename_i hi hj
    have : i.natAbs = j.natAbs := natToChars_inj (by injection h)
    omega
  · rename_i hi hj
    exfalso
    cases hB : natToChars j.natAbs with
    | nil => exact natToChars_ne_nil _ hB
    | cons c cs =>
      rw [hB] at h
      injection h with h1 _
      have hc : c ∈ natToChars j.natAbs := by rw [hB]; exact List.mem_cons_self _ _
      exact natToChars_not_dash _ c hc h1.symm
  · rename_i hi hj
    exfalso
    cases hB : natToChars i.natAbs with
    | nil => exact natToChars_ne_nil _ hB
    | cons c cs =>
      rw [hB] at h
      injection h with h1 _
      have hc : c ∈ natToChars i.natAbs := by rw [hB]; exact List.mem_cons_self _ _
      exact natToChars_not_dash _ c hc h1
  · rename_i hi hj
    have : i.natAbs = j.natAbs := natToChars_inj h
    omega

/-! ## Month keys and `(year, month)` pairs -/

theorem civilFromDays_month_range (z : Int) :
    1 ≤ (civilFromDays z).2.1 ∧ (civilFromDays z).2.1 ≤ 12 := by
  unfold civilFromDays
  dsimp only
  split <;> omega

theorem groupKey_eq_ymKeyEnc (d : Option Int) : groupKey d = ymKeyEnc (ymOf d) := by
  cases d <;> rfl

theorem month_pad2_len (m : Int) (h1 : 1 ≤ m) (h2 : m ≤ 12) :
    (pad2 (intToChars m)).length = 2 := by
  interval_cases m <;> decide

theorem month_pad2_inj (m1 m2 : Int) (h11 : 1 ≤ m1) (h12 : m1 ≤ 12)
    (h21 : 1 ≤ m2) (h22 : m2 ≤ 12)
    (h : pad2 (intToChars m1) = pad2 (intToChars m2)) : m1 = m2 := by
  interval_cases m1 <;> interval_cases m2 <;> revert h <;> decide

theorem ymKeyEnc_some_inj (y1 m1 y2 m2 : Int)
    (hm1 : 1 ≤ m1 ∧ m1 ≤ 12) (hm2 : 1 ≤ m2 ∧ m2 ≤ 12)
    (h : ymKeyEnc (some (y1, m1)) = ymKeyEnc (some (y2, m2))) :
    y1 = y2 ∧ m1 = m2 := by
  simp only [ymKeyEnc] at h
  have hlen : ('-' :: pad2 (intToChars m1)).length = ('-' :: pad2 (intToChars m2)).length := by
    simp [month_pad2_len m1 hm1.1 hm1.2, month_pad2_len m2 hm2.1 hm2.2]
  obtain ⟨hy, hm⟩ := List.append_inj' h hlen
  exact ⟨intToChars_inj hy,
    month_pad2_inj m1 m2 hm1.1 hm1.2 hm2.1 hm2.2 (by injection hm)⟩

theorem ymKeyEnc_some_ne_nan (y m : Int) (hm : 1 ≤ m ∧ m ≤ 12) :
    ymKeyEnc (some (y, m)) ≠ ymKeyEnc none := by
  intro h
  simp only [ymKeyEnc] at h
  have h' : intToChars y ++ '-' :: pad2 (intToChars m) =
      ['N', 'a', 'N', '-'] ++ ['N', 'a', 'N'] := by rw [h]; rfl
  have hlen : ('-' :: pad2 (intToChars m)).length = (['N', 'a', 'N'] : List Char).length := by
    simp [month_pad2_len m hm.1 hm.2]
  obtain ⟨_, hm'⟩ := List.append_inj' h' hlen
  injection hm' with h1 _
  exact absurd h1 (by decide)

theorem ymOf_some (t : Int) :
    ymOf (some t) = some ((civilFromDays t).1, (civilFromDays t).2.1) := rfl

/-- The grouping key determines, and is determined by, the `(year, month)`
pair of the date: two dates get the same key iff they lie in the same
calendar month (with the two `NaN` components of invalid dates identified). -/
theorem groupKey_eq_iff (d1 d2 : Option Int) :
    groupKey d1 = groupKey d2 ↔ ymOf d1 = ymOf d2 := by
  rw [groupKey_eq_ymKeyEnc, groupKey_eq_ymKeyEnc]
  constructor
  · intro h
    cases d1 with
    | none =>
      cases d2 with
      | none => rfl
      | some t2 =>
        exfalso
        have hm := civilFromDays_month_range t2
        exact ymKeyEnc_some_ne_nan _ _ hm (by rw [← ymOf_some]; exact h.symm)
    | some t1 =>
      cases d2 with
      | none =>
        exfalso
        have hm := civilFromDays_month_range t1
        exact ymKeyEnc_some_ne_nan _ _ hm (by rw [← ymOf_some]; exact h)
      | some t2 =>
        have hm1 := civilFromDays_month_range t1
        have hm2 := civilFromDays_month_range t2
        rw [ymOf_some, ymOf_some] at h ⊢
        obtain ⟨hy, hme⟩ := ymKeyEnc_some_inj _ _ _ _ hm1 hm2 h
        rw [hy, hme]
  · intro h
    rw [h]

/-! ## Four-digit years: lexicographic order of keys is chronological -/

theorem natToChars_four (n : Nat) (h1 : 1000 ≤ n) (h2 : n ≤ 9999) :
    natToChars n = [Nat.digitChar (n / 1000), Nat.digitChar (n / 100 % 10),
      Nat.digitChar (n / 10 % 10), Nat.digitChar (n % 10)] := by
  rw [natToChars_eq, if_neg (by omega)]
  rw [natToChars_eq, if_neg (by omega)]
  rw [natToChars_eq, if_neg (by omega)]
  rw [natToChars_eq, if_pos (by omega)]
  have e1 : n / 10 / 10 = n / 100 := by omega
  have e2 : n / 10 / 10 / 10 = n / 1000 := by omega
  have e3 : n / 10 / 10 % 10 = n / 100 % 10 := by omega
  rw [e2, e3]
  simp

theorem digitChar_lt_iff (a b : Nat) (ha : a < 10) (hb : b < 10) :
    (Nat.digitChar a < Nat.digitChar b) ↔ a < b := by
  interval_cases a <;> interval_cases b <;> decide

/-- Two four-digit decimal strings compare lexicographically exactly like
the numbers they denote, regardless of what follows them. -/
theorem lexLt_natToChars_four (a b : Nat) (ha1 : 1000 ≤ a) (ha2 : a ≤ 9999)
    (hb1 : 1000 ≤ b) (hb2 : b ≤ 9999) (hab : a < b) (u v : List Char) :
    lexLt (natToChars a ++ u) (natToChars b ++ v) = true := by
  rw [natToChars_four a ha1 ha2, natToChars_four b hb1 hb2]
  simp only [List.cons_append, List.nil_append, lexLt]
  by_cases c3 : a / 1000 < b / 1000
  · rw [if_pos ((digitChar_lt_iff _ _ (by omega) (by omega)).mpr c3)]
  · have e3 : a / 1000 = b / 1000 := by omega
    rw [e3, if_neg (lt_irrefl _), if_neg (lt_irrefl _)]
    by_cases c2 : a / 100 % 10 < b / 100 % 10
    · rw [if_pos ((digitChar_lt_iff _ _ (by omega) (by omega)).mpr c2)]
    · have e2 : a / 100 % 10 = b / 100 % 10 := by omega
      rw [e2, if_neg (lt_irrefl _), if_neg (lt_irrefl _)]
      by_cases c1 : a / 10 % 10 < b / 10 % 10
      · rw [if_pos ((digitChar_lt_iff _ _ (by omega) (by omega)).mpr c1)]
      · have e1 : a / 10 % 10 = b / 10 % 10 := by omega
        rw [e1, if_neg (lt_irrefl _), if_neg (lt_irrefl _)]
        have c0 : a % 10 < b % 10 := by omega
        rw [if_pos ((digitChar_lt_iff _ _ (by omega) (by omega)).mpr c0)]

theorem intToChars_nonneg (y : Int) (hy : 0 ≤ y) : intToChars y = natToChars y.natAbs := by
  unfold intToChars
  rw [if_neg (by omega)]

/-- On four-digit years, the key encoding is strictly monotone from
chronological to lexicographic order. -/
theorem lexLt_ymKeyEnc_strict (y1 m1 y2 m2 : Int)
    (hy1 : 1000 ≤ y1 ∧ y1 ≤ 9999) (hy2 : 1000 ≤ y2 ∧ y2 ≤ 9999)
    (hm1 : 1 ≤ m1 ∧ m1 ≤ 12) (hm2 : 1 ≤ m2 ∧ m2 ≤ 12)
    (h : y1 < y2 ∨ (y1 = y2 ∧ m1 < m2)) :
    lexLt (ymKeyEnc (some (y1, m1))) (ymKeyEnc (some (y2, m2))) = true := by
  simp only [ymKeyEnc]
  rcases h with h | ⟨rfl, hm⟩
  · rw [intToChars_nonneg y1 (by omega), intToChars_nonneg y2 (by omega)]
    exact lexLt_natToChars_four y1.natAbs y2.natAbs (by omega) (by omega) (by omega)
      (by omega) (by omega) _ _
  · rw [lexLt_append_left]
    simp only [lexLt, lt_irrefl, if_neg, if_false]
    obtain ⟨hm1a, hm1b⟩ := hm1
    obtain ⟨hm2a, hm2b⟩ := hm2
    interval_cases m1 <;> interval_cases m2 <;> revert hm <;> decide

theorem month_pad2_all_digits (m : Int) (h1 : 1 ≤ m) (h2 : m ≤ 12) :
    ∀ c ∈ pad2 (intToChars m), c.isDigit = true := by
  interval_cases m <;> decide

theorem month_pad2_val (m : Int) (h1 : 1 ≤ m) (h2 : m ≤ 12) :
    (valOfDigits (pad2 (intToChars m)) : Int) = m := by
  interval_cases m <;> decide

theorem month_pad2_ne_nil (m : Int) (h1 : 1 ≤ m) (h2 : m ≤ 12) :
    pad2 (intToChars m) ≠ [] := by
  interval_cases m <;> decide

/-- Decoding a well-formed key recovers its `(year, month)` pair. -/
theorem decodeKey_ymKeyEnc (y m : Int) (hy : 0 ≤ y) (hm1 : 1 ≤ m) (hm2 : m ≤ 12) :
    decodeKey ⟨ymKeyEnc (some (y, m))⟩ = some (y, m) := by
  simp only [decodeKey, ymKeyEnc]
  rw [intToChars_nonneg y hy]
  have hself : (natToChars y.natAbs).takeWhile Char.isDigit = natToChars y.natAbs :=
    List.takeWhile_eq_self_iff.mpr (natToChars_all_digits _)
  have htw : (natToChars y.natAbs ++ '-' :: pad2 (intToChars m)).takeWhile Char.isDigit =
      natToChars y.natAbs := by
    rw [List.takeWhile_append, if_pos (by rw [hself])]
    simp [List.takeWhile_cons, Char.isDigit]
  have hdw : (natToChars y.natAbs ++ '-' :: pad2 (intToChars m)).dropWhile Char.isDigit =
      '-' :: pad2 (intToChars m) := by
    rw [List.dropWhile_append]
    have : (natToChars y.natAbs).dropWhile Char.isDigit = [] := by
      rw [List.dropWhile_eq_nil_iff]
      exact fun c hc => natToChars_all_digits _ c hc
    rw [this]
    simp [List.dropWhile_cons, Char.isDigit]
  simp only [htw, hdw]
  rw [if_pos ⟨natToChars_ne_nil _, month_pad2_ne_nil m hm1 hm2,
    List.all_eq_true.mpr (month_pad2_all_digits m hm1 hm2)⟩]
  rw [valOfDigits_natToChars, month_pad2_val m hm1 hm2]
  have hyn : (y.natAbs : Int) = y := by omega
  rw [hyn]

/-! ## Sortedness and stability of `parseCSV`'s sort on valid dates -/

theorem timeLt_some (a b : StockDataPoint) (x y : Int)
    (ha : a.dateObj = some x) (hb : b.dateObj = some y) :
    timeLt a b = decide (x < y) := by
  unfold timeLt
  rw [ha, hb]

theorem pairwise_sort_of_valid (l : List StockDataPoint)
    (hv : ∀ p ∈ l, p.dateObj ≠ none) :
    (jsStableSort timeLt l).Pairwise (fun a b => timeLt b a = false) := by
  apply pairwise_jsStableSort
  · intro a _ b _ h
    exact timeLt_asym a b h
  · intro a ha b hb c hc h1 h2
    obtain ⟨ta, hta⟩ := Option.ne_none_iff_exists'.mp (hv a ha)
    obtain ⟨tb, htb⟩ := Option.ne_none_iff_exists'.mp (hv b hb)
    obtain ⟨tc, htc⟩ := Option.ne_none_iff_exists'.mp (hv c hc)
    rw [timeLt_some b a tb ta htb hta] at h1
    rw [timeLt_some c b tc tb htc htb] at h2
    rw [timeLt_some c a tc ta htc hta]
    simp only [decide_eq_false_iff_not, Int.not_lt] at h1 h2 ⊢
    omega

theorem filter_time_jsInsert (x : StockDataPoint) (acc : List StockDataPoint) (d : Int)
    (hsorted : acc.Pairwise (fun a b => timeLt b a = false))
    (hva : ∀ p ∈ acc, p.dateObj ≠ none) :
    (jsInsert timeLt x acc).filter (fun p => p.dateObj = some d) =
      acc.filter (fun p => p.dateObj = some d) ++
        (if x.dateObj = some d then [x] else []) := by
  induction acc with
  | nil =>
    simp only [jsInsert, List.filter_nil, List.nil_append]
    split <;> rename_i hxd <;> simp [List.filter_cons, hxd]
  | cons b bs ih =>
    rw [List.pairwise_cons] at hsorted
    obtain ⟨hb, hbs⟩ := hsorted
    simp only [jsInsert]
    split
    · rename_i hxb
      obtain ⟨tx, tb, htx, htb, hlt⟩ := (timeLt_true_iff x b).mp hxb
      by_cases hxd : x.dateObj = some d
      · have hdx : d = tx := by
          rw [hxd] at htx
          exact Option.some.inj htx
        have hnil : (b :: bs).filter (fun p => p.dateObj = some d) = [] := by
          rw [List.filter_eq_nil_iff]
          intro z hz
          rcases List.mem_cons.mp hz with rfl | hz'
          · simp only [decide_eq_true_eq]
            intro he
            rw [he] at htb
            have := Option.some.inj htb
            omega
          · obtain ⟨tz, htz⟩ := Option.ne_none_iff_exists'.mp (hva z (List.mem_cons_of_mem _ hz'))
            have hzb := hb z hz'
            rw [timeLt_some z b tz tb htz htb] at hzb
            simp only [decide_eq_false_iff_not, Int.not_lt] at hzb
            simp only [decide_eq_true_eq]
            intro he
            rw [he] at htz
            have := Option.some.inj htz
            omega
        rw [hnil, if_pos hxd]
        simp [List.filter_cons, hxd, hnil]
      · rw [if_neg hxd]
        simp [List.filter_cons, hxd]
    · rename_i hxb
      have ihr := ih hbs (fun p hp => hva p (List.mem_cons_of_mem _ hp))
      by_cases hbd : (b.dateObj = some d)
      · simp [List.filter_cons, hbd, ihr]
      · simp [List.filter_cons, hbd, ihr]

theorem filter_time_jsStableSort (l : List StockDataPoint)
    (hv : ∀ p ∈ l, p.dateObj ≠ none) (d : Int) :
    (jsStableSort timeLt l).filter (fun p => p.dateObj = some d) =
      l.filter (fun p => p.dateObj = some d) := by
  suffices h : ∀ (rest acc : List StockDataPoint),
      (∀ p ∈ acc ++ rest, p.dateObj ≠ none) →
      acc.Pairwise (fun a b => timeLt b a = false) →
      (List.foldl (fun acc a => jsInsert timeLt a acc) acc rest).filter
          (fun p => p.dateObj = some d) =
        acc.filter (fun p => p.dateObj = some d) ++
          rest.filter (fun p => p.dateObj = some d) by
    simpa using h l [] (by simpa using hv) List.Pairwise.nil
  intro rest
  induction rest with
  | nil => intro acc _ _; simp
  | cons x rest ih =>
    intro acc hval hacc
    have hvacc : ∀ p ∈ acc, p.dateObj ≠ none :=
      fun p hp => hval p (List.mem_append_left _ hp)
    have hvx : ∀ p ∈ jsInsert timeLt x acc, p.dateObj ≠ none := by
      intro p hp
      rcases (mem_jsInsert timeLt x acc p).mp hp with rfl | hp'
      · exact hval p (List.mem_append_right _ (List.mem_cons_self _ _))
      · exact hvacc p hp'
    have hsorted' : (jsInsert timeLt x acc).Pairwise (fun a b => timeLt b a = false) := by
      refine pairwise_jsInsert timeLt x acc ?_ ?_ hacc
      · intro a _ b _ h
        exact timeLt_asym a b h
      · intro a ha b hb c hc h1 h2
        have hm : ∀ z ∈ x :: acc, z.dateObj ≠ none := by
          intro z hz
          rcases List.mem_cons.mp hz with rfl | hz'
          · exact hval z (List.mem_append_right _ (List.mem_cons_self _ _))
          · exact hvacc z hz'
        obtain ⟨ta, hta⟩ := Option.ne_none_iff_exists'.mp (hm a ha)
        obtain ⟨tb, htb⟩ := Option.ne_none_iff_exists'.mp (hm b hb)
        obtain ⟨tc, htc⟩ := Option.ne_none_iff_exists'.mp (hm c hc)
        rw [timeLt_some b a tb ta htb hta] at h1
        rw [timeLt_some c b tc tb htc htb] at h2
        rw [timeLt_some c a tc ta htc hta]
        simp only [decide_eq_false_iff_not, Int.not_lt] at h1 h2 ⊢
        omega
    rw [List.foldl_cons, ih (jsInsert timeLt x acc) ?_ hsorted']
    · rw [filter_time_jsInsert x acc d hacc hvacc]
      simp only [List.filter_cons]
      by_cases hxd : x.dateObj = some d
      · simp [hxd]
      · simp [hxd]
    · intro p hp
      rcases List.mem_append.mp hp with hp' | hp'
      · exact hvx p hp'
      · exact hval p (List.mem_append_right _ (List.mem_cons_of_mem _ hp'))

/-! ## Line-level facts about `parseCSV` -/

theorem parseLine_none_of_short (g : List Char) (h : (tokenize g).length < 2) :
    parseLine g = none := by
  unfold parseLine
  rw [if_pos h]

theorem parseLine_isSome (line : List Char) (h : 2 ≤ (tokenize line).length) :
    (parseLine line).isSome = true := by
  unfold parseLine
  rw [if_neg (by omega)]
  rfl

theorem jsSpace_of_digit (c : Char) (h : c.isDigit = true) : jsSpace c = false := by
  simp only [jsSpace, decide_eq_false_iff_not]
  rintro (rfl | rfl | rfl | rfl | rfl | rfl) <;> simp at h

theorem digit_ne_sign (c : Char) (h : c.isDigit = true) : c ≠ '-' ∧ c ≠ '+' := by
  constructor <;> rintro rfl <;> simp at h

theorem takeWhile_digits_dot (ds fs : List Char) (hd : ∀ c ∈ ds, c.isDigit = true) :
    (ds ++ '.' :: fs).takeWhile Char.isDigit = ds := by
  rw [List.takeWhile_append, if_pos (by rw [List.takeWhile_eq_self_iff.mpr hd])]
  simp [List.takeWhile_cons]

/-- Running `parseInt` on a fractional literal keeps exactly the integer part. -/
theorem jsParseInt_digits_dot (ds fs : List Char) (hne : ds ≠ [])
    (hd : ∀ c ∈ ds, c.isDigit = true) :
    jsParseInt (ds ++ '.' :: fs) = some ((valOfDigits ds : Int) : ℚ) := by
  cases ds with
  | nil => cases hne rfl
  | cons c cs =>
    have hc : c.isDigit = true := hd c (List.mem_cons_self _ _)
    have hn1 : c ≠ '-' := (digit_ne_sign c hc).1
    have hn2 : c ≠ '+' := (digit_ne_sign c hc).2
    have hdrop : ((c :: cs) ++ '.' :: fs).dropWhile jsSpace = (c :: cs) ++ '.' :: fs := by
      rw [List.cons_append, List.dropWhile_cons, if_neg (by simp [jsSpace_of_digit c hc])]
    have hhead : (((c :: cs) ++ '.' :: fs)).head? = some c := by
      rw [List.cons_append, List.head?_cons]
    have htw : ((c :: cs) ++ '.' :: fs).takeWhile Char.isDigit = c :: cs :=
      takeWhile_digits_dot _ _ hd
    simp only [jsParseInt, hdrop, hhead]
    have hcond : ¬ ((some c : Option Char) = some '-' ∨ (some c : Option Char) = some '+') := by
      simp [hn1, hn2]
    rw [if_neg hcond, htw]
    rw [if_neg (by simp)]
    simp [hn1]

/-- Running `parseInt` on a negative fractional literal truncates toward zero. -/
theorem jsParseInt_neg_digits_dot (ds fs : List Char) (hne : ds ≠ [])
    (hd : ∀ c ∈ ds, c.isDigit = true) :
    jsParseInt ('-' :: (ds ++ '.' :: fs)) = some ((-(valOfDigits ds : Int) : Int) : ℚ) := by
  have hdrop : ('-' :: (ds ++ '.' :: fs)).dropWhile jsSpace = '-' :: (ds ++ '.' :: fs) := by
    rw [List.dropWhile_cons, if_neg (by simp [jsSpace])]
  simp only [jsParseInt, hdrop, List.head?_cons]
  have hcond : True ∨ ((some '-' : Option Char) = some '+') := Or.inl trivial
  rw [if_pos hcond]
  simp only [List.tail_cons]
  rw [takeWhile_digits_dot _ _ hd]
  rw [if_neg hne]
  simp

theorem chainB_iff (r : α → α → Bool) :
    ∀ l : List α, chainB r l = true ↔ List.Chain' (fun a b => r a b = true) l := by
  intro l
  induction l with
  | nil => simp [chainB]
  | cons a l ih =>
    cases l with
    | nil => simp [chainB]
    | cons b rest =>
      rw [List.chain'_cons]
      simp only [chainB, Bool.and_eq_true]
      rw [ih]

/-! ## The state-level aggregator agrees with the pure one -/

theorem getBucket_pushBucket :
    ∀ (bs : List (List Char × List StockDataPoint)) (kp kg : List Char) (p : StockDataPoint),
      getBucket (pushBucket bs kp p) kg =
        if kp = kg then getBucket bs kg ++ [p] else getBucket bs kg := by
  intro bs
  induction bs with
  | nil =>
    intro kp kg p
    simp only [pushBucket, getBucket]
    by_cases h : kp = kg <;> simp [h]
  | cons hd bs ih =>
    intro kp kg p
    obtain ⟨k0, l⟩ := hd
    by_cases h0 : k0 = kp
    · subst h0
      simp only [pushBucket, if_pos rfl, getBucket]
      by_cases hg : k0 = kg <;> simp [hg, getBucket]
    · simp only [pushBucket, if_neg h0, getBucket]
      by_cases hg : k0 = kg
      · have hne : ¬ (kp = kg) := fun h => h0 (hg.trans h.symm)
        simp [hg, hne, getBucket]
      · simp [hg, getBucket, ih kp kg p]

theorem getBucket_foldl (ps : List StockDataPoint) :
    ∀ (bs : List (List Char × List StockDataPoint)) (k : List Char),
      getBucket (ps.foldl (fun bs p => pushBucket bs (pointKey p) p) bs) k =
        getBucket bs k ++ ps.filter (fun p => pointKey p = k) := by
  induction ps with
  | nil => intro bs k; simp
  | cons p ps ih =>
    intro bs k
    simp only [List.foldl_cons]
    rw [ih, getBucket_pushBucket]
    by_cases h : pointKey p = k
    · simp [h, List.filter_cons]
    · simp [h, List.filter_cons]

theorem bucketKeys_pushBucket :
    ∀ (bs : List (List Char × List StockDataPoint)) (kp : List Char) (p : StockDataPoint),
      bucketKeys (pushBucket bs kp p) =
        if kp ∈ bucketKeys bs then bucketKeys bs else bucketKeys bs ++ [kp] := by
  intro bs
  induction bs with
  | nil => intro kp p; simp [pushBucket, bucketKeys]
  | cons hd bs ih =>
    intro kp p
    obtain ⟨k0, l⟩ := hd
    have hbk : bucketKeys ((k0, l) :: bs) = k0 :: bucketKeys bs := rfl
    by_cases h0 : k0 = kp
    · subst h0
      have h1 : pushBucket ((k0, l) :: bs) k0 p = (k0, l ++ [p]) :: bs := by
        simp [pushBucket]
      rw [h1, if_pos (by rw [hbk]; exact List.mem_cons_self _ _)]
      rfl
    · have hpush : pushBucket ((k0, l) :: bs) kp p = (k0, l) :: pushBucket bs kp p := by
        simp [pushBucket, h0]
      rw [hpush]
      have hk2 : bucketKeys ((k0, l) :: pushBucket bs kp p) =
          k0 :: bucketKeys (pushBucket bs kp p) := rfl
      rw [hk2, ih kp p, hbk]
      by_cases hm : kp ∈ bucketKeys bs
      · rw [if_pos hm, if_pos (List.mem_cons_of_mem _ hm)]
      · have hne : kp ∉ k0 :: bucketKeys bs := by
          intro hmem
          rcases List.mem_cons.mp hmem with h | h
          · exact h0 h.symm
          · exact hm h
        rw [if_neg hm, if_neg hne]
        rfl

theorem bucketKeys_nodup_pushBucket (bs : List (List Char × List StockDataPoint))
    (kp : List Char) (p : StockDataPoint) (h : (bucketKeys bs).Nodup) :
    (bucketKeys (pushBucket bs kp p)).Nodup := by
  rw [bucketKeys_pushBucket]
  split
  · exact h
  · rename_i hm
    simpa using List.Nodup.append h (by simp) (by simpa using hm)

theorem mem_bucketKeys_pushBucket (bs : List (List Char × List StockDataPoint))
    (kp k : List Char) (p : StockDataPoint) :
    k ∈ bucketKeys (pushBucket bs kp p) ↔ k ∈ bucketKeys bs ∨ k = kp := by
  rw [bucketKeys_pushBucket]
  split
  · rename_i hm
    constructor
    · exact Or.inl
    · rintro (h | rfl)
      · exact h
      · exact hm
  · simp

theorem bucketKeys_foldl_nodup (ps : List StockDataPoint) :
    ∀ bs, (bucketKeys bs).Nodup →
      (bucketKeys (ps.foldl (fun bs p => pushBucket bs (pointKey p) p) bs)).Nodup := by
  induction ps with
  | nil => intro bs h; exact h
  | cons p ps ih =>
    intro bs h
    exact ih _ (bucketKeys_nodup_pushBucket bs (pointKey p) p h)

theorem mem_bucketKeys_foldl (ps : List StockDataPoint) :
    ∀ bs k, k ∈ bucketKeys (ps.foldl (fun bs p => pushBucket bs (pointKey p) p) bs) ↔
      k ∈ bucketKeys bs ∨ ∃ p ∈ ps, pointKey p = k := by
  induction ps with
  | nil => intro bs k; simp
  | cons p ps ih =>
    intro bs k
    simp only [List.foldl_cons]
    rw [ih, mem_bucketKeys_pushBucket]
    constructor
    · rintro ((h | rfl) | ⟨q, hq, hqk⟩)
      · exact Or.inl h
      · exact Or.inr ⟨p, List.mem_cons_self _ _, rfl⟩
      · exact Or.inr ⟨q, List.mem_cons_of_mem _ hq, hqk⟩
    · rintro (h | ⟨q, hq, hqk⟩)
      · exact Or.inl (Or.inl h)
      · rcases List.mem_cons.mp hq with rfl | hq'
        · exact Or.inl (Or.inr hqk.symm)


        · exact Or.inr ⟨q, hq', hqk⟩

/-- The sorted key list of the built store is exactly `monthKeys`. -/
theorem sortKeys_eq_monthKeys (data : List StockDataPoint) :
    jsStableSort lexLt
        (bucketKeys (data.foldl (fun bs p => pushBucket bs (pointKey p) p) [])) =
      monthKeys data := by
  have hA : (bucketKeys (data.foldl (fun bs p => pushBucket bs (pointKey p) p) [])).Nodup :=
    bucketKeys_foldl_nodup data [] (by simp [bucketKeys])
  have hB : ((data.map pointKey).dedup).Nodup := List.nodup_dedup _
  have hperm : (bucketKeys (data.foldl (fun bs p => pushBucket bs (pointKey p) p) [])).Perm
      ((data.map pointKey).dedup) := by
    rw [List.perm_ext_iff_of_nodup hA hB]
    intro k
    rw [mem_bucketKeys_foldl data [] k, List.mem_dedup, List.mem_map]
    simp [bucketKeys]
  exact @List.eq_of_perm_of_sorted (List Char) (fun k1 k2 => lexLt k2 k1 = false)
    ⟨fun a b h1 h2 => lexLt_eq_of_not a b h2 h1⟩ _ _
    (((jsStableSort_perm lexLt _).trans hperm).trans (jsStableSort_perm lexLt _).symm)
    (pairwise_jsStableSort lexLt _ (fun a _ b _ h => lexLt_asymm a b h)
      (fun a _ b _ c _ h1 h2 => lexLt_cotrans a b c h1 h2))
    (pairwise_jsStableSort lexLt _ (fun a _ b _ h => lexLt_asymm a b h)
      (fun a _ b _ c _ h1 h2 => lexLt_cotrans a b c h1 h2))

theorem getBucket_setSort :
    ∀ (bs : List (List Char × List StockDataPoint)) (k kg : List Char),
      getBucket (setBucket bs k (jsStableSort timeLt (getBucket bs k))) kg =
        if k = kg then jsStableSort timeLt (getBucket bs kg) else getBucket bs kg := by
  intro bs
  induction bs with
  | nil =>
    intro k kg
    simp only [setBucket, getBucket]
    by_cases h : k = kg <;> simp [h, jsStableSort]
  | cons hd bs ih =>
    intro k kg
    obtain ⟨k0, l⟩ := hd
    by_cases h0 : k0 = k
    · subst h0
      by_cases hg : k0 = kg
      · subst hg
        simp [setBucket, getBucket]
      · simp [setBucket, getBucket, hg]
    · by_cases hg : k0 = kg
      · subst hg
        have hne : ¬ (k = k0) := fun h => h0 h.symm
        simp [setBucket, getBucket, h0, hne]
      · simp [setBucket, getBucket, h0, hg, ih k kg]

theorem sortBucketAt_data (st : AggSt) (k : List Char) :
    (sortBucketAt st k).data = st.data := rfl

theorem sortBucketAt_buckets (st : AggSt) (k : List Char) :
    (sortBucketAt st k).buckets =
      setBucket st.buckets k (jsStableSort timeLt (getBucket st.buckets k)) := rfl

theorem trackedGrowthAux_data :
    ∀ (ks : List (List Char)) (prev : Option (List Char)) (st : AggSt),
      ((trackedGrowthAux st prev ks).2).data = st.data := by
  intro ks
  induction ks with
  | nil => intro prev st; cases prev <;> rfl
  | cons k rest ih =>
    intro prev st
    cases prev with
    | none => exact ih (some k) (sortBucketAt st k)
    | some pk => exact ih (some k) (sortBucketAt (sortBucketAt st k) pk)

/-- Invariant: every bucket of the store is the corresponding pure bucket,
sorted or not yet. -/
def BucketsInv (data : List StockDataPoint) (st : AggSt) : Prop :=
  ∀ k, getBucket st.buckets k = bucketOf data k ∨
    getBucket st.buckets k = sortedBucket data k

theorem bucketsInv_sortBucketAt (data : List StockDataPoint) (st : AggSt)
    (k : List Char) (h : BucketsInv data st) : BucketsInv data (sortBucketAt st k) := by
  intro kg
  rw [sortBucketAt_buckets, getBucket_setSort st.buckets k kg]
  split
  · rcases h kg with h' | h'
    · rw [h']
      exact Or.inr rfl
    · rw [h']
      exact Or.inr (sortedBucket_resort data kg)
  · exact h kg

theorem getBucket_sortBucketAt_self (data : List StockDataPoint) (st : AggSt)
    (k : List Char) (h : BucketsInv data st) :
    getBucket (sortBucketAt st k).buckets k = sortedBucket data k := by
  have hg := getBucket_setSort st.buckets k k
  rw [if_pos rfl] at hg
  rw [sortBucketAt_buckets, hg]
  rcases h k with h' | h'
  · rw [h']
    rfl
  · rw [h']
    exact sortedBucket_resort data k

theorem trackedGrowthAux_records (data : List StockDataPoint) :
    ∀ (ks : List (List Char)) (prev : Option (List Char)) (st : AggSt),
      BucketsInv data st →
      (trackedGrowthAux st prev ks).1 = growthAux data prev ks := by
  intro ks
  induction ks with
  | nil => intro prev st _; cases prev <;> rfl
  | cons k rest ih =>
    intro prev st hinv
    cases prev with
    | none =>
      have hpts : getBucket (sortBucketAt st k).buckets k = sortedBucket data k :=
        getBucket_sortBucketAt_self data st k hinv
      have hinv1 : BucketsInv data (sortBucketAt st k) :=
        bucketsInv_sortBucketAt data st k hinv
      simp only [trackedGrowthAux, growthAux, hpts,
        ih (some k) (sortBucketAt st k) hinv1]
    | some pk =>
      have hinv1 : BucketsInv data (sortBucketAt st k) :=
        bucketsInv_sortBucketAt data st k hinv
      have hpts : getBucket (sortBucketAt st k).buckets k = sortedBucket data k :=
        getBucket_sortBucketAt_self data st k hinv
      have hprev : getBucket (sortBucketAt (sortBucketAt st k) pk).buckets pk =
          sortedBucket data pk :=
        getBucket_sortBucketAt_self data (sortBucketAt st k) pk hinv1
      have hinv2 : BucketsInv data (sortBucketAt (sortBucketAt st k) pk) :=
        bucketsInv_sortBucketAt data (sortBucketAt st k) pk hinv1
      simp only [trackedGrowthAux, growthAux, hpts, hprev, sortedBucket_resort,
        ih (some k) (sortBucketAt (sortBucketAt st k) pk) hinv2]

/-! ## The claims -/

/-- C1: on the Scenario A input text, `parseCSV` returns exactly the three
points (dates `2024/01/01`, `2024/01/31`, `2024/02/29`, values 1000, 1100,
1210, in that order), and `calculateMonthlyGrowth` of that result is
exactly the two records `2024-01` (1000 → 1100, growth 100, 10%) and
`2024-02` (1100 → 1210, growth 110, 10%). -/
theorem claim1_scenario_a :
    parseCSV "Date,Value\n2024/01/01,1000\n2024/01/31,1100\n2024/02/29,1210\n" =
      [⟨"2024/01/01", some (daysFromCivil 2024 1 1), some 1000, none⟩,
       ⟨"2024/01/31", some (daysFromCivil 2024 1 31), some 1100, none⟩,
       ⟨"2024/02/29", some (daysFromCivil 2024 2 29), some 1210, none⟩] ∧
    calculateMonthlyGrowth
        (parseCSV "Date,Value\n2024/01/01,1000\n2024/01/31,1100\n2024/02/29,1210\n") =
      [⟨"2024-01", some 1000, some 1100, some 100, some 10⟩,
       ⟨"2024-02", some 1100, some 1210, some 110, some 10⟩] := by
  constructor
  · decide
  · decide

/-- C2: for every input point sequence, every record except the first has a
`startValue` equal to the `endValue` of the immediately preceding emitted
record (gaps chain to whatever month came before). -/
theorem claim2_chain_continuity (data : List StockDataPoint) :
    List.Chain' (fun r1 r2 => r2.startValue = r1.endValue)
      (calculateMonthlyGrowth data) :=
  growthAux_chain data (monthKeys data) none

/-- C3: the emitted month keys are pairwise distinct, are exactly the keys
of the `(year, month)` pairs of the input points' calendar dates (an
invalid date contributing its `NaN` pair), and the key encoding
distinguishes precisely the distinct pairs — so the records correspond
one-to-one with the distinct `(year, month)` pairs present in the input,
with no gap-filling. -/
theorem claim3_month_key_coverage (data : List StockDataPoint) :
    ((calculateMonthlyGrowth data).map (·.month)).Nodup ∧
    (∀ k : String, k ∈ (calculateMonthlyGrowth data).map (·.month) ↔
      ∃ p ∈ data, (⟨ymKeyEnc (ymOf p.dateObj)⟩ : String) = k) ∧
    (∀ p ∈ data, ∀ q ∈ data,
      ((⟨ymKeyEnc (ymOf p.dateObj)⟩ : String) = (⟨ymKeyEnc (ymOf q.dateObj)⟩ : String) ↔
        ymOf p.dateObj = ymOf q.dateObj)) := by
  have hmap : (calculateMonthlyGrowth data).map (·.month) =
      (monthKeys data).map (fun k => (⟨k⟩ : String)) :=
    growthAux_map_month data (monthKeys data) none
  refine ⟨?_, ?_, ?_⟩
  · rw [hmap]
    exact (monthKeys_nodup data).map (fun a b h => congrArg String.data h)
  · intro k
    rw [hmap]
    simp only [List.mem_map]
    constructor
    · rintro ⟨k', hk', rfl⟩
      obtain ⟨p, hp, hpk⟩ := (mem_monthKeys data k').mp hk'
      exact ⟨p, hp, by rw [← hpk, pointKey, groupKey_eq_ymKeyEnc]⟩
    · rintro ⟨p, hp, rfl⟩
      refine ⟨pointKey p, (mem_monthKeys data _).mpr ⟨p, hp, rfl⟩, ?_⟩
      rw [pointKey, groupKey_eq_ymKeyEnc]
  · intro p _ q _
    constructor
    · intro h
      have h' : ymKeyEnc (ymOf p.dateObj) = ymKeyEnc (ymOf q.dateObj) :=
        congrArg String.data h
      rw [← groupKey_eq_ymKeyEnc, ← groupKey_eq_ymKeyEnc] at h'
      exact (groupKey_eq_iff _ _).mp h'
    · intro h
      rw [h]

/-- The overflow threshold literal is exactly `2 ^ 1024 - 2 ^ 970`. -/
theorem dblOvf_eq : dblOvf = 2 ^ 1024 - 2 ^ 970 := by norm_num [dblOvf]

/-- A quantity of magnitude at most `2 * 10 ^ 302` is strictly below the
double overflow threshold. -/
theorem lt_dblOvf (a : ℚ) (h : |a| ≤ 2 * 10 ^ 300 * 100) : |a| < dblOvf :=
  lt_of_le_of_lt h (by norm_num [dblOvf])

/-- Cast bound: an integer of `natAbs` at most `10 ^ 300` has rational
absolute value at most `10 ^ 300`. -/
theorem abs_intCast_le (n : ℤ) (h : n.natAbs ≤ 10 ^ 300) :
    |(n : ℚ)| ≤ 10 ^ 300 := by
  have h1 : ((n.natAbs : ℕ) : ℚ) ≤ (((10 ^ 300 : ℕ) : ℕ) : ℚ) := Nat.cast_le.mpr h
  have h2 : |(n : ℚ)| = ((n.natAbs : ℕ) : ℚ) := by
    rw [← Int.cast_abs, Int.abs_eq_natAbs, Int.cast_natCast]
  rw [h2]
  calc ((n.natAbs : ℕ) : ℚ) ≤ (((10 ^ 300 : ℕ) : ℕ) : ℚ) := h1
    _ = 10 ^ 300 := by push_cast; ring

/-- A nonzero integer has rational absolute value at least `1`. -/
theorem one_le_abs_intCast (n : ℤ) (h : n ≠ 0) : (1 : ℚ) ≤ |(n : ℚ)| := by
  rw [← Int.cast_abs]
  exact_mod_cast Int.one_le_abs h

/-- The difference of two integers bounded by `10 ^ 300` is bounded by
`2 * 10 ^ 300`. -/
theorem abs_intCast_sub_le (n m : ℤ) (hn : n.natAbs ≤ 10 ^ 300)
    (hm : m.natAbs ≤ 10 ^ 300) : |(m : ℚ) - (n : ℚ)| ≤ 2 * 10 ^ 300 := by
  calc |(m : ℚ) - (n : ℚ)| ≤ |(m : ℚ)| + |(n : ℚ)| := abs_sub _ _
    _ ≤ 10 ^ 300 + 10 ^ 300 := add_le_add (abs_intCast_le m hm) (abs_intCast_le n hn)
    _ = 2 * 10 ^ 300 := by ring

/-- For integer operands bounded by `10 ^ 300` the subtraction `jsSub` does
not overflow and gives the exact difference. -/
theorem jsSub_int (n m : ℤ) (hn : n.natAbs ≤ 10 ^ 300)
    (hm : m.natAbs ≤ 10 ^ 300) :
    jsSub (some ((m : ℤ) : ℚ)) (some ((n : ℤ) : ℚ)) = some ((m : ℚ) - n) := by
  simp only [jsSub]
  rw [if_pos (lt_dblOvf _ (le_trans (abs_intCast_sub_le n m hn hm) (by norm_num)))]

/-- For integer operands bounded by `10 ^ 300` with a nonzero baseline
(hence of absolute value at least `1`), the whole percent computation
`(end - start) / start * 100` stays below the overflow threshold and is
computed exactly. -/
theorem pct_int (n m : ℤ) (hn : n.natAbs ≤ 10 ^ 300)
    (hm : m.natAbs ≤ 10 ^ 300) (hn0 : n ≠ 0) :
    jsMul (jsDiv (jsSub (some ((m : ℤ) : ℚ)) (some ((n : ℤ) : ℚ)))
        (some ((n : ℤ) : ℚ))) (some 100) =
      some (((m : ℚ) - n) / n * 100) := by
  have h1 : (1 : ℚ) ≤ |(n : ℚ)| := one_le_abs_intCast n hn0
  have hne : ((n : ℤ) : ℚ) ≠ 0 := Int.cast_ne_zero.mpr hn0
  have hdivle : |((m : ℚ) - n) / n| ≤ 2 * 10 ^ 300 := by
    calc |((m : ℚ) - n) / n| ≤ |(m : ℚ) - n| := by
          rw [abs_div]; exact div_le_self (abs_nonneg _) h1
      _ ≤ 2 * 10 ^ 300 := abs_intCast_sub_le n m hn hm
  have hmulle : |((m : ℚ) - n) / n * 100| ≤ 2 * 10 ^ 300 * 100 := by
    rw [abs_mul]
    have h100 : |(100 : ℚ)| = 100 := by norm_num
    rw [h100]
    exact mul_le_mul_of_nonneg_right hdivle (by norm_num)
  rw [jsSub_int n m hn hm]
  simp only [jsDiv]
  rw [if_neg hne, if_pos (lt_dblOvf _ (le_trans hdivle (by norm_num)))]
  simp only [jsMul]
  rw [if_pos (lt_dblOvf _ hmulle)]

/-- C4 counterexample: a parseable row whose value token is not numeric
gives a point with value `NaN`; the resulting record's `growthPercent` is
`NaN` (modelled `none`), which is not a finite number, refuting "for every
input point sequence growthPercent is a finite number". -/
theorem claim4_counterexample :
    ∃ r ∈ calculateMonthlyGrowth (parseCSV "Date,Value\n2024/01/01,abc"),
      r.growthPercent = none := by
  decide

/-- C4 amended: when every input point's value is a finite integer of
magnitude at most `10 ^ 300` — as `parseInt` produces integers, and the
bound (with `|startValue| ≥ 1` whenever it is nonzero) keeps every
intermediate double computation below the overflow threshold
`2 ^ 1024 - 2 ^ 970`, so the JS run stays finite too — every record's
`growthPercent` is a finite number; it is `0` whenever the record's
`startValue` is `0`, and otherwise equals `growth / startValue * 100`. -/
theorem claim4_amended (data : List StockDataPoint)
    (hv : ∀ p ∈ data, ∃ n : ℤ, p.value = some ((n : ℤ) : ℚ) ∧ n.natAbs ≤ 10 ^ 300) :
    ∀ r ∈ calculateMonthlyGrowth data,
      (∃ q : ℚ, r.growthPercent = some q) ∧
      (r.startValue = some 0 → r.growthPercent = some 0) ∧
      (∀ s e : ℚ, r.startValue = some s → r.endValue = some e → s ≠ 0 →
        r.growth = some (e - s) ∧ r.growthPercent = some ((e - s) / s * 100)) := by
  intro r hr
  obtain ⟨k, sv, ev, rfl⟩ :=
    growthAux_shape data (monthKeys data) none r hr
  obtain ⟨⟨p, hp, hps⟩, ⟨q, hq, hqe⟩⟩ :=
    growthAux_values data (monthKeys data) none _ (fun _ hk => hk)
      (by intro pk h; cases h) hr
  rw [mkRecord_startValue] at hps
  rw [mkRecord_endValue] at hqe
  obtain ⟨n, hn, hnb⟩ := hv p hp
  obtain ⟨m, hm, hmb⟩ := hv q hq
  rw [hn] at hps
  rw [hm] at hqe
  subst hps
  subst hqe
  refine ⟨?_, ?_, ?_⟩
  · rw [mkRecord_growthPercent]
    by_cases h0 : ((n : ℤ) : ℚ) = 0
    · rw [if_neg (by simp [h0])]
      exact ⟨0, rfl⟩
    · have hn0 : n ≠ 0 := fun h => h0 (by rw [h]; exact Int.cast_zero)
      rw [if_pos (by simp [h0])]
      exact ⟨((m : ℚ) - n) / n * 100, pct_int n m hnb hmb hn0⟩
  · intro h0
    rw [mkRecord_startValue] at h0
    have h0' : ((n : ℤ) : ℚ) = 0 := Option.some.inj h0
    rw [mkRecord_growthPercent, if_neg (by simp [h0'])]
  · intro s' e' hs' he' hne
    rw [mkRecord_startValue] at hs'
    rw [mkRecord_endValue] at he'
    have hss : ((n : ℤ) : ℚ) = s' := Option.some.inj hs'
    have hee : ((m : ℤ) : ℚ) = e' := Option.some.inj he'
    subst hss
    subst hee
    have hn0 : n ≠ 0 := fun h => hne (by rw [h]; exact Int.cast_zero)
    constructor
    · rw [mkRecord_growth]
      exact jsSub_int n m hnb hmb
    · rw [mkRecord_growthPercent, if_pos (by simp [hne])]
      exact pct_int n m hnb hmb hn0

/-- C4 witness. -/
theorem claim4_witness :
    (∀ p ∈ [(⟨"2024/01/01", some 19723, some 5, none⟩ : StockDataPoint)],
      ∃ n : ℤ, p.value = some ((n : ℤ) : ℚ) ∧ n.natAbs ≤ 10 ^ 300) ∧
    (∀ r ∈ calculateMonthlyGrowth [(⟨"2024/01/01", some 19723, some 5, none⟩ : StockDataPoint)],
      (∃ q : ℚ, r.growthPercent = some q) ∧
      (r.startValue = some 0 → r.growthPercent = some 0) ∧
      (∀ s e : ℚ, r.startValue = some s → r.endValue = some e → s ≠ 0 →
        r.growth = some (e - s) ∧ r.growthPercent = some ((e - s) / s * 100))) := by
  have h : ∀ p ∈ [(⟨"2024/01/01", some 19723, some 5, none⟩ : StockDataPoint)],
      ∃ n : ℤ, p.value = some ((n : ℤ) : ℚ) ∧ n.natAbs ≤ 10 ^ 300 := by
    intro p hp
    rw [List.mem_singleton] at hp
    subst hp
    exact ⟨5, by decide, by norm_num⟩
  exact ⟨h, claim4_amended _ h⟩

/-- C5 counterexample: a kept row whose date token is not numeric yields an
invalid calendar date; the JS comparator returns `NaN` for it, the stable
sort leaves it in place before a valid earlier-dated row, and the output is
not sorted by `calendarDate` (a `NaN` comparison is not `≤`), refuting "for
every input text the output is sorted ascending by calendarDate". -/
theorem claim5_counterexample :
    ¬ List.Chain' (fun a b => calDateLe a b = true)
        (parseCSV "Date,Value\nA/B/C,5\n2020/01/01,3") := by
  rw [← chainB_iff]
  decide

/-- C5 amended: for every input text all of whose kept rows carry valid
calendar dates, `parseCSV`'s output is sorted ascending by `calendarDate`,
and rows with equal calendar dates keep their relative input order (the
sort is stable). -/
theorem claim5_amended (t : String)
    (hv : ∀ p ∈ (dataLines t).filterMap parseLine, p.dateObj ≠ none) :
    List.Chain' (fun a b => calDateLe a b = true) (parseCSV t) ∧
    ∀ d : Int, (parseCSV t).filter (fun p => p.dateObj = some d) =
      ((dataLines t).filterMap parseLine).filter (fun p => p.dateObj = some d) := by
  constructor
  · have hpw := pairwise_sort_of_valid ((dataLines t).filterMap parseLine) hv
    have hpw2 : (jsStableSort timeLt ((dataLines t).filterMap parseLine)).Pairwise
        (fun a b => calDateLe a b = true) := by
      refine hpw.imp_of_mem ?_
      intro a b ha hb hab
      have ha' := (mem_jsStableSort timeLt _ a).mp ha
      have hb' := (mem_jsStableSort timeLt _ b).mp hb
      obtain ⟨ta, hta⟩ := Option.ne_none_iff_exists'.mp (hv a ha')
      obtain ⟨tb, htb⟩ := Option.ne_none_iff_exists'.mp (hv b hb')
      rw [timeLt_some b a tb ta htb hta] at hab
      simp only [decide_eq_false_iff_not, Int.not_lt] at hab
      unfold calDateLe
      rw [hta, htb]
      simpa using hab
    exact hpw2.chain'
  · intro d
    exact filter_time_jsStableSort _ hv d

/-- C5 witness. -/
theorem claim5_witness :
    (∀ p ∈ (dataLines "Date,Value\n2024/01/02,5\n2024/01/01,3").filterMap parseLine,
      p.dateObj ≠ none) ∧
    (List.Chain' (fun a b => calDateLe a b = true)
        (parseCSV "Date,Value\n2024/01/02,5\n2024/01/01,3") ∧
      ∀ d : Int, (parseCSV "Date,Value\n2024/01/02,5\n2024/01/01,3").filter
          (fun p => p.dateObj = some d) =
        ((dataLines "Date,Value\n2024/01/02,5\n2024/01/01,3").filterMap parseLine).filter
          (fun p => p.dateObj = some d)) :=
  ⟨by decide, claim5_amended _ (by decide)⟩

/-- C6 counterexample: the emitted order is ascending lexicographic on the
key strings, but for years of different digit lengths this is not
chronological: with points in years 999 and 1000, the record for `1000-01`
is emitted before the record for `999-01`, refuting "ascending
lexicographic order of the emitted keys coincides with chronological order
of the (year, month) pairs" as stated for every input sequence. -/
theorem claim6_counterexample :
    ¬ List.Chain' (fun r1 r2 => ymLeB (decodeKey r1.month) (decodeKey r2.month) = true)
        (calculateMonthlyGrowth
          [⟨"0999/01/01", some (daysFromCivil 999 1 1), some 1, none⟩,
           ⟨"1000/01/01", some (daysFromCivil 1000 1 1), some 2, none⟩]) := by
  rw [← chainB_iff]
  decide

/-- C6 amended: for every input point sequence the records are emitted in
ascending lexicographic order of their month keys; and when every point's
date is valid with a four-digit year (1000–9999), that order coincides with
chronological order of the corresponding `(year, month)` pairs. -/
theorem claim6_amended (data : List StockDataPoint) :
    List.Chain' (fun r1 r2 => lexLt r2.month.data r1.month.data = false)
      (calculateMonthlyGrowth data) ∧
    ((∀ p ∈ data, yearInRange p.dateObj = true) →
      List.Chain' (fun r1 r2 => ymLeB (decodeKey r1.month) (decodeKey r2.month) = true)
        (calculateMonthlyGrowth data)) := by
  have hmap : (calculateMonthlyGrowth data).map (·.month) =
      (monthKeys data).map (fun k => (⟨k⟩ : String)) :=
    growthAux_map_month data (monthKeys data) none
  have hp : (monthKeys data).Pairwise (fun k1 k2 => lexLt k2 k1 = false) :=
    pairwise_jsStableSort lexLt _ (fun a _ b _ h => lexLt_asymm a b h)
      (fun a _ b _ c _ h1 h2 => lexLt_cotrans a b c h1 h2)
  constructor
  · have h1 : List.Chain' (fun s1 s2 : String => lexLt s2.data s1.data = false)
        ((calculateMonthlyGrowth data).map (·.month)) := by
      rw [hmap, List.chain'_map]
      exact hp.chain'
    exact (List.chain'_map (fun r : MonthlyGrowth => r.month)).mp h1
  · intro hv
    have hkey : ∀ k ∈ monthKeys data, ∃ y m : Int,
        1000 ≤ y ∧ y ≤ 9999 ∧ 1 ≤ m ∧ m ≤ 12 ∧ k = ymKeyEnc (some (y, m)) := by
      intro k hk
      obtain ⟨p, hp', hpk⟩ := (mem_monthKeys data k).mp hk
      have hr := hv p hp'
      cases hd : p.dateObj with
      | none =>
        rw [hd] at hr
        simp [yearInRange] at hr
      | some tt =>
        rw [hd] at hr
        simp only [yearInRange, decide_eq_true_eq] at hr
        refine ⟨(civilFromDays tt).1, (civilFromDays tt).2.1, hr.1, hr.2,
          (civilFromDays_month_range tt).1, (civilFromDays_month_range tt).2, ?_⟩
        rw [← hpk, pointKey, hd, groupKey_eq_ymKeyEnc, ymOf_some]
    have hp2 : (monthKeys data).Pairwise
        (fun k1 k2 => ymLeB (decodeKey (⟨k1⟩ : String)) (decodeKey (⟨k2⟩ : String)) = true) := by
      refine hp.imp_of_mem ?_
      intro a b ha hb hle
      obtain ⟨y1, m1, hy11, hy12, hm11, hm12, hae⟩ := hkey a ha
      obtain ⟨y2, m2, hy21, hy22, hm21, hm22, hbe⟩ := hkey b hb
      rw [hae, hbe, decodeKey_ymKeyEnc y1 m1 (by omega) hm11 hm12,
        decodeKey_ymKeyEnc y2 m2 (by omega) hm21 hm22]
      simp only [ymLeB, decide_eq_true_eq]
      by_contra hcon
      have hrev : y2 < y1 ∨ (y2 = y1 ∧ m2 < m1) := by omega
      have hstrict := lexLt_ymKeyEnc_strict y2 m2 y1 m1 ⟨hy21, hy22⟩ ⟨hy11, hy12⟩
        ⟨hm21, hm22⟩ ⟨hm11, hm12⟩ hrev
      rw [← hbe, ← hae] at hstrict
      simp [hstrict] at hle
    have h1 : List.Chain' (fun s1 s2 : String => ymLeB (decodeKey s1) (decodeKey s2) = true)
        ((calculateMonthlyGrowth data).map (·.month)) := by
      rw [hmap, List.chain'_map]
      exact hp2.chain'
    exact (List.chain'_map (fun r : MonthlyGrowth => r.month)).mp h1

/-- C6 witness. -/
theorem claim6_witness :
    (∀ p ∈ [(⟨"2024/01/01", some (daysFromCivil 2024 1 1), some 1, none⟩ : StockDataPoint),
            (⟨"2024/02/01", some (daysFromCivil 2024 2 1), some 2, none⟩ : StockDataPoint)],
      yearInRange p.dateObj = true) ∧
    List.Chain' (fun r1 r2 => ymLeB (decodeKey r1.month) (decodeKey r2.month) = true)
      (calculateMonthlyGrowth
        [⟨"2024/01/01", some (daysFromCivil 2024 1 1), some 1, none⟩,
         ⟨"2024/02/01", some (daysFromCivil 2024 2 1), some 2, none⟩]) :=
  ⟨by decide, (claim6_amended _).2 (by decide)⟩

/-- C7: dropping a data line that tokenizes to fewer than two tokens does
not change `parseCSV`'s result (such lines are silently excluded and do not
abort the processing of other lines), and empty or header-only input yields
an empty point sequence, which the aggregator maps to an empty record
sequence. -/
theorem claim7_tolerant_parsing :
    (∀ (t1 t2 : String) (pre post : List (List Char)) (g : List Char),
      dataLines t1 = pre ++ g :: post → dataLines t2 = pre ++ post →
      (tokenize g).length < 2 → parseCSV t1 = parseCSV t2) ∧
    parseCSV "" = [] ∧ parseCSV "Date,Value" = [] ∧ calculateMonthlyGrowth [] = [] := by
  refine ⟨?_, by decide, by decide, rfl⟩
  intro t1 t2 pre post g h1 h2 hg
  unfold parseCSV
  rw [h1, h2, List.filterMap_append, List.filterMap_append,
    List.filterMap_cons_none (parseLine_none_of_short g hg)]

/-- C7 witness: Scenario B — a one-token `garbage` line between valid rows
is dropped without disturbing the other rows. -/
theorem claim7_witness :
    parseCSV "Date,Value\n2024/01/01,1000\ngarbage\n2024/01/31,1100" =
      parseCSV "Date,Value\n2024/01/01,1000\n2024/01/31,1100" :=
  claim7_tolerant_parsing.1 _ _ ["2024/01/01,1000".data] ["2024/01/31,1100".data]
    "garbage".data (by decide) (by decide) (by decide)

/-- C8: the value field is parsed by stripping quotes and thousands-comma
separators and reading a decimal integer: the quoted token `"35,000,000"`
parses to 35000000, a fractional token is truncated toward zero rather than
rounded or rejected (`4500.75` gives 4500), and in general `parseInt` keeps
exactly the (signed) integer part of a fractional literal. -/
theorem claim8_value_parsing :
    (parseCSV "Date,Value\n2024/01/01,\"35,000,000\"").map (·.value) = [some 35000000] ∧
    (parseCSV "Date,Value\n2024/01/01,4500.75").map (·.value) = [some 4500] ∧
    (∀ ds fs : List Char, ds ≠ [] → (∀ c ∈ ds, c.isDigit = true) →
      jsParseInt (ds ++ '.' :: fs) = some ((valOfDigits ds : Int) : ℚ)) ∧
    (∀ ds fs : List Char, ds ≠ [] → (∀ c ∈ ds, c.isDigit = true) →
      jsParseInt ('-' :: (ds ++ '.' :: fs)) = some ((-(valOfDigits ds : Int) : Int) : ℚ)) :=
  ⟨by decide, by decide, jsParseInt_digits_dot, jsParseInt_neg_digits_dot⟩

/-- C8 witness. -/
theorem claim8_witness :
    ((['4', '5', '0', '0'] : List Char) ≠ [] ∧
      jsParseInt (['4', '5', '0', '0'] ++ '.' :: ['7', '5']) =
        some ((valOfDigits ['4', '5', '0', '0'] : Int) : ℚ)) ∧
    jsParseInt ('-' :: (['4', '5', '0', '0'] ++ '.' :: ['7', '5'])) =
      some ((-(valOfDigits ['4', '5', '0', '0'] : Int) : Int) : ℚ) :=
  ⟨⟨by decide, claim8_value_parsing.2.2.1 _ _ (by decide) (by decide)⟩,
    claim8_value_parsing.2.2.2 _ _ (by decide) (by decide)⟩

/-- C9: the third (index) field is optional and never causes row rejection:
a quoted `"4,500.25"` yields `index = 4500.25`, a missing third column and a
non-numeric third token both keep the row with `index` unset; in general
any line with at least two tokens produces a point. -/
theorem claim9_index_optional :
    ((parseCSV
        "Date,Value,Index\n2024/01/03,1200,\"4,500.25\"\n2024/01/04,1300\n2024/01/05,1400,abc").map
      (·.index) = [some (18001 / 4 : ℚ), none, none]) ∧
    (∀ line : List Char, 2 ≤ (tokenize line).length → (parseLine line).isSome = true) :=
  ⟨by decide, parseLine_isSome⟩

/-- C9 witness. -/
theorem claim9_witness :
    2 ≤ (tokenize "2024/01/01,1000".data).length ∧
    (parseLine "2024/01/01,1000".data).isSome = true :=
  ⟨by decide, claim9_index_optional.2 _ (by decide)⟩

/-- C10: `calculateMonthlyGrowth` is free of side effects on its argument.
In the store-passing embedding — where the argument array's contents and
every in-place bucket sort are tracked explicitly — the argument component
of the final store equals the original input (same elements, same order,
all fields unchanged), and the records produced agree with the pure
function. -/
theorem claim10_no_argument_mutation (data : List StockDataPoint) :
    (trackedCalculateMonthlyGrowth data).2.data = data ∧
    (trackedCalculateMonthlyGrowth data).1 = calculateMonthlyGrowth data := by
  have hinv0 : BucketsInv data
      ⟨data, data.foldl (fun bs p => pushBucket bs (pointKey p) p) []⟩ := by
    intro k
    left
    show getBucket (data.foldl (fun bs p => pushBucket bs (pointKey p) p) []) k =
      bucketOf data k
    rw [getBucket_foldl]
    simp [getBucket, bucketOf]
  constructor
  · show ((trackedGrowthAux _ none _).2).data = data
    rw [trackedGrowthAux_data]
  · show (trackedGrowthAux _ none (jsStableSort lexLt (bucketKeys _))).1 = _
    rw [sortKeys_eq_monthKeys]
    exact trackedGrowthAux_records data (monthKeys data) none _ hinv0

end NVT
